import Mathlib

/-!
itemchecklist: the claim reconciler, the item handlers, the SSE broker and backup retention.

A shallow embedding of `src/main.go`.

* Go's `int` (64 bit, two's complement) is the subtype `GoInt` of `Int`; the two
  arithmetic operations the handlers perform (`-` and `+`) wrap modulo `2^64`.
* A Go slice is the list of its elements.
* The item file `items.json` is a `FileState`; the handlers are functions from a
  `World` (file, write behaviour, broker) to a response and the next `World`.
-/

namespace ItemChecklist

/-! ## Machine integers -/

/-- Smallest value of Go's `int` on a 64 bit platform. -/
def minInt : Int := -9223372036854775808

/-- Largest value of Go's `int` on a 64 bit platform. -/
def maxInt : Int := 9223372036854775807

/-- Two's complement wrap-around of a mathematical integer into 64 bits. -/
def wrap64 (x : Int) : Int := (x + 9223372036854775808) % 18446744073709551616 - 9223372036854775808

/-- Go's `int`: the integers between `minInt` and `maxInt`. -/
abbrev GoInt : Type := { x : Int // minInt ≤ x ∧ x ≤ maxInt }

/-- Conversion of an integer to `int`, wrapping. -/
def GoInt.ofInt (x : Int) : GoInt :=
  ⟨wrap64 x, by unfold wrap64 minInt maxInt; omega⟩

/-- Go's `a - b` on `int`. -/
def GoInt.sub (a b : GoInt) : GoInt := GoInt.ofInt (a.val - b.val)

/-- Go's `a + b` on `int`. -/
def GoInt.add (a b : GoInt) : GoInt := GoInt.ofInt (a.val + b.val)

/-- The constant `0`. -/
def GoInt.zero : GoInt := ⟨0, by decide⟩

/-! ## Data model (`main.go`, lines 27-63) -/

/-- Go `type claim struct`. -/
structure claim where
  Claimer : String
  ClaimStart : GoInt
  ClaimEnd : GoInt
deriving DecidableEq, Repr

/-- Go `type item struct`. -/
structure item where
  Name : String
  Target : GoInt
  Gathered : GoInt
  Claims : List claim
deriving DecidableEq, Repr

/-- Go `type updateItemRequest struct`. -/
structure updateItemRequest where
  Name : String
  Gathered : GoInt
deriving DecidableEq, Repr

/-- Go `type claimItemRequest struct`. -/
structure claimItemRequest where
  Name : String
  Claimed : GoInt
  Claimer : String
deriving DecidableEq, Repr

/-- Go `type sseMessage struct` (its field `Type` is `Kind` here, `Type` being a
keyword); the broadcast payload is kept as this record rather than as its JSON
text. -/
structure sseMessage where
  Kind : String
  Items : List item
deriving DecidableEq, Repr

/-! ## `strings.TrimSpace` -/

/-- Go `unicode.IsSpace`: the code points with the Unicode White_Space property. -/
def isSpace (c : Char) : Bool :=
  let n := c.toNat
  (9 ≤ n && n ≤ 13) || n = 32 || n = 133 || n = 160 || n = 5760 ||
  (8192 ≤ n && n ≤ 8202) || n = 8232 || n = 8233 || n = 8239 || n = 8287 || n = 12288

/-- Go `strings.TrimSpace`: drop leading and trailing white space. -/
def trimSpace (s : String) : String :=
  ⟨((s.data.dropWhile isSpace).reverse.dropWhile isSpace).reverse⟩

/-! ## The claim reconciler (`main.go`, lines 198-212, 259-330) -/

/-- Lines 201-206 of `updateItemHandler`: the requested amount after the two
clamping `if`s. -/
def clampGathered (req target : GoInt) : GoInt :=
  let g := if req.val < 0 then GoInt.zero else req
  if g.val > target.val then target else g

/-- Lines 201-208: the body of the `updateItemHandler` loop on the matching item. -/
def applyGather (it : item) (requested : GoInt) : item :=
  { it with Gathered := clampGathered requested it.Target }

/-- Lines 199-212: the `for i := range items` loop of `updateItemHandler`; the
second component is the variable `updated`. -/
def updateLoop (req : updateItemRequest) : List item → List item × Bool
  | [] => ([], false)
  | it :: rest =>
    if it.Name = req.Name then (applyGather it req.Gathered :: rest, true)
    else ((updateLoop req rest).1.cons it, (updateLoop req rest).2)

/-- Lines 262-271 of `claimItemHandler`: the requested quantity after clamping
to `[0, remaining]`. -/
def clampClaimed (it : item) (req : GoInt) : GoInt :=
  let q := if req.val < 0 then GoInt.zero else req
  let remaining := GoInt.sub it.Target it.Gathered
  let remaining := if remaining.val < 0 then GoInt.zero else remaining
  if q.val > remaining.val then remaining else q

/-- Go `removeClaimByName`: rebuild the claims, skipping those of `name`. -/
def removeClaimByName (it : item) (name : String) : item :=
  { it with Claims :=
      it.Claims.foldl (fun newClaims c => if c.Claimer ≠ name then newClaims ++ [c] else newClaims) [] }

/-- The search of `getClaimByName` over a claims slice: the index of the first
claim of `name`. -/
def findClaim (name : String) : List claim → Option Nat
  | [] => none
  | c :: cs => if c.Claimer = name then some 0 else (findClaim name cs).map (· + 1)

/-- Go `getClaimByName`: a pointer into `item.Claims` (here: an index), or nil. -/
def getClaimByName (it : item) (name : String) : Option Nat :=
  findClaim name it.Claims

/-- Assignment of both range fields through the pointer returned by
`getClaimByName` (lines 284-285). -/
def setRange (i : Nat) (s e : GoInt) : List claim → List claim
  | [] => []
  | c :: cs =>
    match i with
    | 0 => { c with ClaimStart := s, ClaimEnd := e } :: cs
    | j + 1 => c :: setRange j s e cs

/-- Lines 262-287: the body of the `claimItemHandler` loop on the matching item;
`claimer` is the already trimmed `req.Claimer`. -/
def applyClaim (it : item) (claimer : String) (requested : GoInt) : item :=
  let claimed := clampClaimed it requested
  if claimed.val = 0 then removeClaimByName it claimer
  else
    match getClaimByName it claimer with
    | none =>
      { it with Claims := it.Claims ++
          [{ Claimer := claimer, ClaimStart := it.Gathered,
             ClaimEnd := GoInt.add it.Gathered claimed }] }
    | some i =>
      { it with Claims := setRange i it.Gathered (GoInt.add it.Gathered claimed) it.Claims }

/-- Lines 260-291: the `for i := range items` loop of `claimItemHandler` (with
`req.Claimer` already trimmed); the second component is the variable `updated`. -/
def claimLoop (req : claimItemRequest) : List item → List item × Bool
  | [] => ([], false)
  | it :: rest =>
    if it.Name = req.Name then (applyClaim it req.Claimer req.Claimed :: rest, true)
    else ((claimLoop req rest).1.cons it, (claimLoop req rest).2)

/-! ## The SSE broker (`main.go`, lines 65-103, 395-397) -/

/-- A buffered Go channel: its capacity and the messages queued in it, oldest
first. -/
structure Chan (α : Type) where
  cap : Nat
  buf : List α
deriving DecidableEq, Repr

/-- Go `make(chan T, n)`. -/
def Chan.make {α : Type} (n : Nat) : Chan α := { cap := n, buf := [] }

/-- The non-blocking send `select { case ch <- msg: default: }`: the channel
after the send, or `none` when the `default` branch is taken. -/
def Chan.trySend {α : Type} (ch : Chan α) (msg : α) : Option (Chan α) :=
  if ch.buf.length < ch.cap then some { ch with buf := ch.buf ++ [msg] } else none

/-- The receive `msg := <-ch` on a channel that holds a message. -/
def Chan.recv {α : Type} (ch : Chan α) : Option (α × Chan α) :=
  match ch.buf with
  | [] => none
  | m :: rest => some (m, { ch with buf := rest })

/-- Go `type sseBroker struct`: the map `clients` and the counter `nextID` (the
mutex makes each method below one atomic step). A channel is kept by value in
the map. -/
structure sseBroker (α : Type) where
  clients : AList (fun _ : Nat => Chan α)
  nextID : Nat

/-- Go `newSSEBroker`. -/
def newSSEBroker {α : Type} : sseBroker α := { clients := ∅, nextID := 0 }

/-- Go `(*sseBroker).addClient`; returns the broker and the new id. -/
def sseBroker.addClient {α : Type} (b : sseBroker α) (ch : Chan α) : sseBroker α × Nat :=
  ({ clients := b.clients.insert b.nextID ch, nextID := b.nextID + 1 }, b.nextID)

/-- Go `(*sseBroker).removeClient`. -/
def sseBroker.removeClient {α : Type} (b : sseBroker α) (id : Nat) : sseBroker α :=
  { b with clients := b.clients.erase id }

/-- One iteration of the `range b.clients` loop of `broadcast`, for the key
`id`: a key deleted meanwhile is not visited. -/
def broadcastStep {α : Type} (msg : α) (m : AList (fun _ : Nat => Chan α)) (id : Nat) :
    AList (fun _ : Nat => Chan α) :=
  match m.lookup id with
  | none => m
  | some ch =>
    match ch.trySend msg with
    | some ch1 => m.insert id ch1
    | none => m.erase id

/-- Go `(*sseBroker).broadcast`. -/
def sseBroker.broadcast {α : Type} (b : sseBroker α) (msg : α) : sseBroker α :=
  { b with clients := b.clients.keys.foldl (broadcastStep msg) b.clients }

/-- Lines 395-396 of `sseHandler`: a channel of capacity 4 is registered. -/
def subscribe {α : Type} (b : sseBroker α) : sseBroker α × Nat :=
  b.addClient (Chan.make 4)

/-! ## The item store and the two mutation handlers (`main.go`, lines 179-311, 463-495) -/

/-- What `items.json` holds. -/
inductive FileState where
  | missing
  | unreadable
  | present (items : List item)
deriving DecidableEq, Repr

/-- The server's environment: the item file, what a failing `os.WriteFile`
leaves behind (`none` when writes succeed), and the broker. -/
structure World where
  file : FileState
  writeErr : Option FileState
  broker : sseBroker sseMessage

/-- Go `readItems`: an absent file is the empty collection, an unreadable or
unparsable one is an error. -/
def readItems : FileState → Option (List item)
  | .missing => some []
  | .unreadable => none
  | .present items => some items

/-- Go `writeItems`: the world after the write, and whether it succeeded. -/
def writeItems (w : World) (items : List item) : World × Bool :=
  match w.writeErr with
  | none => ({ w with file := .present items }, true)
  | some left => ({ w with file := left }, false)

/-- An HTTP request as the handlers see it: the method and the result of
decoding the JSON body (`none` when `Decode` fails). -/
structure HttpRequest (α : Type) where
  method : String
  body : Option α

/-- Status code and text of the reply. -/
structure Response where
  status : Nat
  body : String
deriving DecidableEq, Repr

/-- Go `updateItemHandler`. -/
def updateItemHandler (w : World) (r : HttpRequest updateItemRequest) : Response × World :=
  if r.method ≠ "POST" then (⟨405, "method not allowed"⟩, w)
  else
    match r.body with
    | none => (⟨400, "invalid body"⟩, w)
    | some req =>
      match readItems w.file with
      | none => (⟨500, "could not read items"⟩, w)
      | some items =>
        let res := updateLoop req items
        if !res.2 then (⟨404, "\x7b\"error\":\"Item not found\"\x7d"⟩, w)
        else
          let wr := writeItems w res.1
          if !wr.2 then (⟨500, "could not write items"⟩, wr.1)
          else
            (⟨200, "\x7b\"success\":true\x7d"⟩,
              { wr.1 with broker := wr.1.broker.broadcast ⟨"update", res.1⟩ })

/-- Go `claimItemHandler`. -/
def claimItemHandler (w : World) (r : HttpRequest claimItemRequest) : Response × World :=
  if r.method ≠ "POST" then (⟨405, "method not allowed"⟩, w)
  else
    match r.body with
    | none => (⟨400, "invalid body"⟩, w)
    | some req0 =>
      let req := { req0 with Claimer := trimSpace req0.Claimer }
      if req.Claimer = "" then (⟨400, "\x7b\"error\":\"Claimer required\"\x7d"⟩, w)
      else
        match readItems w.file with
        | none => (⟨500, "could not read items"⟩, w)
        | some items =>
          let res := claimLoop req items
          if !res.2 then (⟨404, "\x7b\"error\":\"Item not found\"\x7d"⟩, w)
          else
            let wr := writeItems w res.1
            if !wr.2 then (⟨500, "could not write items"⟩, wr.1)
            else
              (⟨200, "\x7b\"success\":true\x7d"⟩,
                { wr.1 with broker := wr.1.broker.broadcast ⟨"update", res.1⟩ })

/-- A request to one of the two mutation endpoints. -/
inductive Request where
  | update (r : HttpRequest updateItemRequest)
  | claim (r : HttpRequest claimItemRequest)

/-- Dispatch of a request to its handler (lines 118-119). -/
def handle (w : World) : Request → Response × World
  | .update r => updateItemHandler w r
  | .claim r => claimItemHandler w r

/-- The world after a sequence of requests handled one after another. -/
def runRequests (w : World) : List Request → World
  | [] => w
  | r :: rs => runRequests (handle w r).2 rs

/-! ## Concurrent handlers

`http.ListenAndServe` runs every request in its own goroutine and `main.go`
takes no lock around `readItems` ... `writeItems`. A handler is therefore two
atomic steps: everything up to and including `readItems`, and the rest. -/

/-- A decoded and validated mutation, as the handler holds it after
`readItems` (the claimer is trimmed). -/
inductive Loaded where
  | update (req : updateItemRequest)
  | claim (req : claimItemRequest)
deriving DecidableEq, Repr

/-- Progress of one handler goroutine. -/
inductive Proc where
  | start (r : Request)
  | loaded (l : Loaded) (items : List item)
  | finished (resp : Response)

/-- First part of a handler: method check, decoding, trimming and `readItems`. -/
def beginRequest (w : World) : Request → Proc
  | .update r =>
    if r.method ≠ "POST" then .finished ⟨405, "method not allowed"⟩
    else
      match r.body with
      | none => .finished ⟨400, "invalid body"⟩
      | some req =>
        match readItems w.file with
        | none => .finished ⟨500, "could not read items"⟩
        | some items => .loaded (.update req) items
  | .claim r =>
    if r.method ≠ "POST" then .finished ⟨405, "method not allowed"⟩
    else
      match r.body with
      | none => .finished ⟨400, "invalid body"⟩
      | some req0 =>
        let req := { req0 with Claimer := trimSpace req0.Claimer }
        if req.Claimer = "" then .finished ⟨400, "\x7b\"error\":\"Claimer required\"\x7d"⟩
        else
          match readItems w.file with
          | none => .finished ⟨500, "could not read items"⟩
          | some items => .loaded (.claim req) items

/-- Second part of a handler: the loop over the items it read, `writeItems`
and the broadcast. -/
def finishRequest (w : World) (l : Loaded) (items : List item) : Response × World :=
  let res := match l with
    | .update req => updateLoop req items
    | .claim req => claimLoop req items
  if !res.2 then (⟨404, "\x7b\"error\":\"Item not found\"\x7d"⟩, w)
  else
    let wr := writeItems w res.1
    if !wr.2 then (⟨500, "could not write items"⟩, wr.1)
    else
      (⟨200, "\x7b\"success\":true\x7d"⟩,
        { wr.1 with broker := wr.1.broker.broadcast ⟨"update", res.1⟩ })

/-- The server with its handler goroutines. -/
structure Sys where
  world : World
  procs : List Proc

/-- A scheduling decision: goroutine `i` runs its first or its second part. -/
inductive Event where
  | read (i : Nat)
  | write (i : Nat)
deriving DecidableEq, Repr

/-- One scheduling step. -/
def Sys.step (s : Sys) : Event → Sys
  | .read i =>
    match s.procs.get? i with
    | some (.start r) => { s with procs := s.procs.set i (beginRequest s.world r) }
    | _ => s
  | .write i =>
    match s.procs.get? i with
    | some (.loaded l items) =>
      { world := (finishRequest s.world l items).2,
        procs := s.procs.set i (.finished (finishRequest s.world l items).1) }
    | _ => s

/-- A schedule, run from a state. -/
def Sys.run (s : Sys) (es : List Event) : Sys := es.foldl Sys.step s

/-- The schedule that runs goroutines `k`, `k+1`, ..., `k+n-1` one after another. -/
def serialFrom (k : Nat) : Nat → List Event
  | 0 => []
  | n + 1 => .read k :: .write k :: serialFrom (k + 1) n

/-- The status of a goroutine's reply, once it has replied. -/
def Proc.status : Proc → Option Nat
  | .finished resp => some resp.status
  | _ => none

/-! ## Backup retention (`main.go`, lines 530-572) -/

/-- An entry of the `backups` directory as `os.ReadDir` reports it. -/
structure DirEntry where
  name : String
  isDir : Bool
deriving DecidableEq, Repr

/-- Go `strings.HasPrefix`. -/
def hasPrefix (s pre : String) : Bool := pre.data.isPrefixOf s.data

/-- Go `strings.HasSuffix`. -/
def hasSuffix (s suf : String) : Bool := suf.data.reverse.isPrefixOf s.data.reverse

/-- Go's `<` on two strings, on their code points (which orders valid UTF-8 as
its bytes do). -/
def lessChars : List Char → List Char → Bool
  | _, [] => false
  | [], _ :: _ => true
  | a :: as, b :: bs =>
    if a.toNat < b.toNat then true
    else if b.toNat < a.toNat then false
    else lessChars as bs

/-- Go's `a < b` on strings. -/
def stringLess (a b : String) : Bool := lessChars a.data b.data

/-- The condition of line 561. -/
def isBackup (e : DirEntry) : Bool :=
  !e.isDir && hasPrefix e.name "items-" && hasSuffix e.name ".json"

/-- Lines 559-564: the names collected into `backups`. -/
def listBackups (entries : List DirEntry) : List String :=
  entries.foldl (fun backups e => if isBackup e then backups ++ [e.name] else backups) []

/-- Go `sort.Strings`: the ascending arrangement under `<`. -/
def sortStrings (xs : List String) : List String :=
  xs.insertionSort (fun a b => stringLess b a = false)

/-- Lines 567-571: the names handed to `os.Remove`, in order. -/
def removalLoop : List String → List String
  | [] => []
  | toDelete :: rest =>
    if (toDelete :: rest).length > 50 then toDelete :: removalLoop rest else []

/-- A successful `os.Remove` of the file `name` in the directory. -/
def osRemove (dir : List DirEntry) (name : String) : List DirEntry :=
  dir.filter (fun e => e.name ≠ name)

/-- Go `cleanupBackups` on the directory content `dir`; `readDirOk` tells
whether `os.ReadDir` succeeds, and every `os.Remove` is taken to succeed. -/
def cleanupBackups (readDirOk : Bool) (dir : List DirEntry) : List DirEntry :=
  if !readDirOk then dir
  else (removalLoop (sortStrings (listBackups dir))).foldl osRemove dir

/-- The environment of one run of `performBackup`: the item file, the clock
reading formatted with the layout of line 541, and which system calls work. -/
structure Cycle where
  file : FileState
  timestamp : String
  mkdirOk : Bool
  writeOk : Bool
  readDirOk : Bool

/-- The file name of line 542. -/
def backupName (timestamp : String) : String := "items-" ++ timestamp ++ ".json"

/-- Go `performBackup` on the directory content `dir`. Writing over a directory
fails; a failed write is taken to leave the directory as it was. -/
def performBackup (c : Cycle) (dir : List DirEntry) : List DirEntry :=
  match readItems c.file with
  | none => dir
  | some items =>
    if items.length = 0 then dir
    else if !c.mkdirOk then dir
    else if !c.writeOk || dir.any (fun e => e.name = backupName c.timestamp && e.isDir) then dir
    else
      cleanupBackups c.readDirOk
        (if dir.any (fun e => e.name = backupName c.timestamp) then dir
         else dir ++ [⟨backupName c.timestamp, false⟩])

/-- A cycle that writes its archive and then lists the directory. -/
def Cycle.archives (c : Cycle) : Prop :=
  (∃ items, readItems c.file = some items ∧ items ≠ []) ∧
    c.mkdirOk = true ∧ c.writeOk = true ∧ c.readDirOk = true

/-- The directory after a sequence of backup cycles. -/
def runCycles (dir : List DirEntry) : List Cycle → List DirEntry
  | [] => dir
  | c :: cs => runCycles (performBackup c dir) cs

/-! ## Invariants of the data model -/

/-- The item's progress lies inside `[0, target]`. -/
def GatheredOk (it : item) : Prop :=
  0 ≤ it.Target.val ∧ 0 ≤ it.Gathered.val ∧ it.Gathered.val ≤ it.Target.val

/-- Every claim of the item lies inside `[0, target]`. -/
def ClaimsOk (it : item) : Prop :=
  ∀ c ∈ it.Claims, 0 ≤ c.ClaimStart.val ∧ c.ClaimStart.val ≤ c.ClaimEnd.val ∧
    c.ClaimEnd.val ≤ it.Target.val

/-- No two claims of the item have the same claimer. -/
def ClaimersDistinct (it : item) : Prop := (it.Claims.map claim.Claimer).Nodup

/-- A store whose writes succeed and whose file holds a collection of items
that all satisfy `P`. -/
def StoreInv (P : item → Prop) (w : World) : Prop :=
  w.writeErr = none ∧ ∃ items, w.file = .present items ∧ ∀ it ∈ items, P it

/-- The retention invariant: `kept` are archives out of `seen`, and an archive
of `seen` is missing from `kept` only when `kept` holds 50 names, all of them
greater. -/
def Retained (kept seen : List String) : Prop :=
  (∀ k ∈ kept, k ∈ seen) ∧
    ∀ a ∈ seen, a ∉ kept → kept.length = 50 ∧ ∀ k ∈ kept, stringLess a k = true

/-- The replies of a sequence of requests handled one after another. -/
def runResponses (w : World) : List Request → List Response
  | [] => []
  | r :: rs => (handle w r).1 :: runResponses (handle w r).2 rs

/-! ## Example data -/

/-- The item of the scenarios in section 8 of the specification. -/
def ironOre : item := ⟨"Iron Ore", GoInt.ofInt 100, GoInt.ofInt 20, []⟩

/-- The same item once Bob holds `[20, 70)`. -/
def ironOreBob : item :=
  ⟨"Iron Ore", GoInt.ofInt 100, GoInt.ofInt 20, [⟨"Bob", GoInt.ofInt 20, GoInt.ofInt 70⟩]⟩

/-- An item with target 10 and gathered 5. -/
def stone : item := ⟨"Stone", GoInt.ofInt 10, GoInt.ofInt 5, []⟩

/-- A writable store holding `ironOre` and `stone`, with no subscriber. -/
def world0 : World := ⟨.present [ironOre, stone], none, newSSEBroker⟩

/-- A writable store holding `ironOreBob`, with no subscriber. -/
def worldBob : World := ⟨.present [ironOreBob], none, newSSEBroker⟩

/-- Bob asks for 50 of Iron Ore. -/
def bobClaims : Request := .claim ⟨"POST", some ⟨"Iron Ore", GoInt.ofInt 50, "Bob"⟩⟩

/-- Alice asks for 10 of Iron Ore. -/
def aliceClaims : Request := .claim ⟨"POST", some ⟨"Iron Ore", GoInt.ofInt 10, " Alice "⟩⟩

/-- A gather update far above the target. -/
def gatherTooMuch : Request := .update ⟨"POST", some ⟨"Iron Ore", GoInt.ofInt 400⟩⟩

/-- A gather update below zero. -/
def gatherNegative : Request := .update ⟨"POST", some ⟨"Stone", GoInt.ofInt (-7)⟩⟩

/-- A `backups` directory with 51 archives, a directory and a stray file. -/
def dir51 : List DirEntry :=
  [⟨"items-old.json", true⟩, ⟨"notes.txt", false⟩,
    ⟨"items-00.json", false⟩, ⟨"items-01.json", false⟩, ⟨"items-02.json", false⟩, ⟨"items-03.json", false⟩,
    ⟨"items-04.json", false⟩, ⟨"items-05.json", false⟩, ⟨"items-06.json", false⟩, ⟨"items-07.json", false⟩,
    ⟨"items-08.json", false⟩, ⟨"items-09.json", false⟩, ⟨"items-10.json", false⟩, ⟨"items-11.json", false⟩,
    ⟨"items-12.json", false⟩, ⟨"items-13.json", false⟩, ⟨"items-14.json", false⟩, ⟨"items-15.json", false⟩,
    ⟨"items-16.json", false⟩, ⟨"items-17.json", false⟩, ⟨"items-18.json", false⟩, ⟨"items-19.json", false⟩,
    ⟨"items-20.json", false⟩, ⟨"items-21.json", false⟩, ⟨"items-22.json", false⟩, ⟨"items-23.json", false⟩,
    ⟨"items-24.json", false⟩, ⟨"items-25.json", false⟩, ⟨"items-26.json", false⟩, ⟨"items-27.json", false⟩,
    ⟨"items-28.json", false⟩, ⟨"items-29.json", false⟩, ⟨"items-30.json", false⟩, ⟨"items-31.json", false⟩,
    ⟨"items-32.json", false⟩, ⟨"items-33.json", false⟩, ⟨"items-34.json", false⟩, ⟨"items-35.json", false⟩,
    ⟨"items-36.json", false⟩, ⟨"items-37.json", false⟩, ⟨"items-38.json", false⟩, ⟨"items-39.json", false⟩,
    ⟨"items-40.json", false⟩, ⟨"items-41.json", false⟩, ⟨"items-42.json", false⟩, ⟨"items-43.json", false⟩,
    ⟨"items-44.json", false⟩, ⟨"items-45.json", false⟩, ⟨"items-46.json", false⟩, ⟨"items-47.json", false⟩,
    ⟨"items-48.json", false⟩, ⟨"items-49.json", false⟩, ⟨"items-50.json", false⟩]

/-- Fifty-one distinct clock readings, in increasing order. -/
def stamps51 : List String :=
  ["00", "01", "02", "03", "04", "05", "06", "07", "08", "09", "10", "11", "12",
    "13", "14", "15", "16", "17", "18", "19", "20", "21", "22", "23", "24", "25",
    "26", "27", "28", "29", "30", "31", "32", "33", "34", "35", "36", "37", "38",
    "39", "40", "41", "42", "43", "44", "45", "46", "47", "48", "49", "50"]

/-- Fifty-one backup cycles on a store holding `ironOre`, all system calls
succeeding. -/
def cycles51 : List Cycle :=
  stamps51.map (fun t => ⟨.present [ironOre], t, true, true, true⟩)

/-! ## Lemmas on the machine integers and the reconciler -/

theorem wrap64_of_range {x : Int} (h1 : minInt ≤ x) (h2 : x ≤ maxInt) : wrap64 x = x := by
  unfold wrap64
  unfold minInt at h1
  unfold maxInt at h2
  omega

theorem GoInt.sub_val (a b : GoInt) : (GoInt.sub a b).val = wrap64 (a.val - b.val) := rfl

theorem GoInt.add_val (a b : GoInt) : (GoInt.add a b).val = wrap64 (a.val + b.val) := rfl

theorem GoInt.zero_val : GoInt.zero.val = 0 := rfl

theorem clampGathered_val (req target : GoInt) :
    (clampGathered req target).val = min (max req.val 0) target.val := by
  unfold clampGathered
  simp only []
  split_ifs <;> simp only [GoInt.zero_val] at * <;> omega

/-- The clamped quantity is never negative. -/
theorem clampClaimed_nonneg (it : item) (q : GoInt) : 0 ≤ (clampClaimed it q).val := by
  unfold clampClaimed
  simp only []
  split_ifs <;> simp only [GoInt.zero_val] at * <;> omega

/-- Without overflow in `Target - Gathered` the clamped quantity is the
mathematical clamp. -/
theorem clampClaimed_val (it : item) (q : GoInt)
    (h : 0 ≤ it.Gathered.val ∧ it.Gathered.val ≤ it.Target.val) :
    (clampClaimed it q).val = min (max q.val 0) (it.Target.val - it.Gathered.val) := by
  have hT := it.Target.property
  have hsub : (GoInt.sub it.Target it.Gathered).val = it.Target.val - it.Gathered.val := by
    rw [GoInt.sub_val]
    apply wrap64_of_range
    · unfold minInt; omega
    · unfold maxInt at *; omega
  unfold clampClaimed
  simp only []
  split_ifs <;> simp only [GoInt.zero_val, hsub] at * <;> omega

theorem foldl_keep (p : claim → Bool) (l acc : List claim) :
    l.foldl (fun a c => if p c = true then a ++ [c] else a) acc = acc ++ l.filter p := by
  induction l generalizing acc with
  | nil => simp
  | cons c cs ih =>
    simp only [List.foldl_cons, ih, List.filter_cons]
    split_ifs <;> simp

theorem removeClaimByName_claims (it : item) (n : String) :
    (removeClaimByName it n).Claims = it.Claims.filter (fun c => decide (c.Claimer ≠ n)) := by
  unfold removeClaimByName
  have h := foldl_keep (fun c => decide (c.Claimer ≠ n)) it.Claims []
  simp only [decide_eq_true_eq, List.nil_append] at h
  simpa using h

theorem findClaim_eq_none {n : String} {l : List claim} :
    findClaim n l = none ↔ ∀ c ∈ l, c.Claimer ≠ n := by
  induction l with
  | nil => simp [findClaim]
  | cons c cs ih =>
    unfold findClaim
    by_cases h : c.Claimer = n
    · simp [h]
    · simp [h, ih]

theorem findClaim_eq_some {n : String} {l : List claim} {i : Nat} (h : findClaim n l = some i) :
    ∃ pre x post, l = pre ++ x :: post ∧ pre.length = i ∧ (∀ y ∈ pre, y.Claimer ≠ n) ∧
      x.Claimer = n := by
  induction l generalizing i with
  | nil => simp [findClaim] at h
  | cons c cs ih =>
    unfold findClaim at h
    by_cases hc : c.Claimer = n
    · simp only [hc, if_true, Option.some.injEq] at h
      exact ⟨[], c, cs, rfl, by simpa using h, by simp, hc⟩
    · simp only [hc, if_false, Option.map_eq_some'] at h
      obtain ⟨j, hj, rfl⟩ := h
      obtain ⟨pre, x, post, rfl, hlen, hpre, hx⟩ := ih hj
      refine ⟨c :: pre, x, post, rfl, by simp [hlen], ?_, hx⟩
      intro y hy
      rcases List.mem_cons.1 hy with rfl | hy
      · exact hc
      · exact hpre y hy

theorem setRange_append (pre : List claim) (x : claim) (post : List claim) (s e : GoInt) :
    setRange pre.length s e (pre ++ x :: post) =
      pre ++ { x with ClaimStart := s, ClaimEnd := e } :: post := by
  induction pre with
  | nil => simp [setRange]
  | cons c cs ih => simp [setRange, ih]

theorem mem_setRange {i : Nat} {s e : GoInt} {l : List claim} {c : claim}
    (h : c ∈ setRange i s e l) : c ∈ l ∨ (c.ClaimStart = s ∧ c.ClaimEnd = e) := by
  induction l generalizing i with
  | nil => simp [setRange] at h
  | cons d ds ih =>
    cases i with
    | zero =>
      simp only [setRange, List.mem_cons] at h
      rcases h with rfl | h
      · exact Or.inr ⟨rfl, rfl⟩
      · exact Or.inl (List.mem_cons_of_mem _ h)
    | succ j =>
      simp only [setRange, List.mem_cons] at h
      rcases h with rfl | h
      · exact Or.inl (List.mem_cons_self _ _)
      · rcases ih h with h | h
        · exact Or.inl (List.mem_cons_of_mem _ h)
        · exact Or.inr h

theorem map_Claimer_setRange (i : Nat) (s e : GoInt) (l : List claim) :
    (setRange i s e l).map claim.Claimer = l.map claim.Claimer := by
  induction l generalizing i with
  | nil => simp [setRange]
  | cons d ds ih =>
    cases i with
    | zero => simp [setRange]
    | succ j => simp [setRange, ih]

theorem applyClaim_Name (it : item) (c : String) (q : GoInt) :
    (applyClaim it c q).Name = it.Name := by
  unfold applyClaim removeClaimByName
  simp only []
  split_ifs
  · rfl
  · split <;> rfl

theorem applyClaim_Target (it : item) (c : String) (q : GoInt) :
    (applyClaim it c q).Target = it.Target := by
  unfold applyClaim removeClaimByName
  simp only []
  split_ifs
  · rfl
  · split <;> rfl

theorem applyClaim_Gathered (it : item) (c : String) (q : GoInt) :
    (applyClaim it c q).Gathered = it.Gathered := by
  unfold applyClaim removeClaimByName
  simp only []
  split_ifs
  · rfl
  · split <;> rfl

/-- Every claim of the item after `applyClaim` was there before or carries the
new range. -/
theorem mem_applyClaim {it : item} {c : String} {q : GoInt} {x : claim}
    (h : x ∈ (applyClaim it c q).Claims) :
    x ∈ it.Claims ∨ ((clampClaimed it q).val ≠ 0 ∧ x.ClaimStart = it.Gathered ∧
      x.ClaimEnd = GoInt.add it.Gathered (clampClaimed it q)) := by
  unfold applyClaim at h
  simp only [] at h
  split_ifs at h with h0
  · rw [removeClaimByName_claims] at h
    exact Or.inl (List.mem_of_mem_filter h)
  · split at h
    · simp only [List.mem_append, List.mem_singleton] at h
      rcases h with h | rfl
      · exact Or.inl h
      · exact Or.inr ⟨h0, rfl, rfl⟩
    · rcases mem_setRange h with h | h
      · exact Or.inl h
      · exact Or.inr ⟨h0, h.1, h.2⟩

theorem applyGather_GatheredOk (it : item) (g : GoInt) (h : 0 ≤ it.Target.val) :
    GatheredOk (applyGather it g) := by
  unfold GatheredOk applyGather
  simp only [clampGathered_val]
  omega

theorem applyClaim_GatheredOk (it : item) (c : String) (q : GoInt) (h : GatheredOk it) :
    GatheredOk (applyClaim it c q) := by
  unfold GatheredOk at *
  rw [applyClaim_Target, applyClaim_Gathered]
  exact h

theorem applyClaim_ClaimsOk (it : item) (c : String) (q : GoInt) (h : GatheredOk it)
    (hc : ClaimsOk it) : ClaimsOk (applyClaim it c q) := by
  intro x hx
  rw [applyClaim_Target]
  rcases mem_applyClaim hx with hx | ⟨_, hs, he⟩
  · exact hc x hx
  · have hk := clampClaimed_val it q ⟨h.2.1, h.2.2⟩
    have hT := it.Target.property
    have hadd : (GoInt.add it.Gathered (clampClaimed it q)).val =
        it.Gathered.val + (clampClaimed it q).val := by
      rw [GoInt.add_val]
      apply wrap64_of_range
      · unfold minInt; unfold GatheredOk at h; omega
      · unfold maxInt at *; unfold GatheredOk at h; omega
    rw [hs, he, hadd, hk]
    unfold GatheredOk at h
    omega

theorem applyClaim_ClaimersDistinct (it : item) (c : String) (q : GoInt)
    (h : ClaimersDistinct it) : ClaimersDistinct (applyClaim it c q) := by
  unfold ClaimersDistinct at *
  unfold applyClaim
  simp only []
  split_ifs
  · rw [removeClaimByName_claims]
    exact h.sublist ((List.filter_sublist _).map _)
  · split
    · rename_i hnone
      have hno := findClaim_eq_none.1 hnone
      simp only [List.map_append, List.map_cons, List.map_nil]
      refine List.Nodup.append h (List.nodup_singleton _) ?_
      intro a ha hb
      simp only [List.mem_singleton] at hb
      subst hb
      obtain ⟨y, hy, hya⟩ := List.mem_map.1 ha
      exact hno y hy hya
    · simp only [map_Claimer_setRange]
      exact h

/-! ## Invariants carried through the handlers -/

theorem updateLoop_forall (P : item → Prop) (hG : ∀ it g, P it → P (applyGather it g))
    (req : updateItemRequest) (items : List item) (h : ∀ it ∈ items, P it) :
    ∀ it ∈ (updateLoop req items).1, P it := by
  induction items with
  | nil => simp [updateLoop]
  | cons x xs ih =>
    unfold updateLoop
    split_ifs
    · intro it hit
      rcases List.mem_cons.1 hit with rfl | hit
      · exact hG _ _ (h x (List.mem_cons_self _ _))
      · exact h it (List.mem_cons_of_mem _ hit)
    · intro it hit
      rcases List.mem_cons.1 hit with rfl | hit
      · exact h _ (List.mem_cons_self _ _)
      · exact ih (fun y hy => h y (List.mem_cons_of_mem _ hy)) it hit

theorem claimLoop_forall (P : item → Prop) (hC : ∀ it c q, P it → P (applyClaim it c q))
    (req : claimItemRequest) (items : List item) (h : ∀ it ∈ items, P it) :
    ∀ it ∈ (claimLoop req items).1, P it := by
  induction items with
  | nil => simp [claimLoop]
  | cons x xs ih =>
    unfold claimLoop
    split_ifs
    · intro it hit
      rcases List.mem_cons.1 hit with rfl | hit
      · exact hC _ _ _ (h x (List.mem_cons_self _ _))
      · exact h it (List.mem_cons_of_mem _ hit)
    · intro it hit
      rcases List.mem_cons.1 hit with rfl | hit
      · exact h _ (List.mem_cons_self _ _)
      · exact ih (fun y hy => h y (List.mem_cons_of_mem _ hy)) it hit

theorem updateItemHandler_inv (P : item → Prop) (hG : ∀ it g, P it → P (applyGather it g))
    (w : World) (r : HttpRequest updateItemRequest) (h : StoreInv P w) :
    StoreInv P (updateItemHandler w r).2 := by
  obtain ⟨hw, items, hf, hP⟩ := h
  unfold updateItemHandler
  split_ifs
  · exact ⟨hw, items, hf, hP⟩
  · cases hb : r.body with
    | none => exact ⟨hw, items, hf, hP⟩
    | some req =>
      simp only [hf, readItems, writeItems, hw]
      split_ifs
      · exact ⟨hw, items, hf, hP⟩
      · simp at *
      · exact ⟨rfl, _, rfl, updateLoop_forall P hG req items hP⟩

theorem claimItemHandler_inv (P : item → Prop) (hC : ∀ it c q, P it → P (applyClaim it c q))
    (w : World) (r : HttpRequest claimItemRequest) (h : StoreInv P w) :
    StoreInv P (claimItemHandler w r).2 := by
  obtain ⟨hw, items, hf, hP⟩ := h
  unfold claimItemHandler
  split_ifs
  · exact ⟨hw, items, hf, hP⟩
  · cases hb : r.body with
    | none => exact ⟨hw, items, hf, hP⟩
    | some req =>
      simp only [hf, readItems, writeItems, hw]
      split_ifs
      · exact ⟨hw, items, hf, hP⟩
      · exact ⟨hw, items, hf, hP⟩
      · simp at *
      · exact ⟨rfl, _, rfl, claimLoop_forall P hC _ items hP⟩

theorem runRequests_inv (P : item → Prop) (hG : ∀ it g, P it → P (applyGather it g))
    (hC : ∀ it c q, P it → P (applyClaim it c q)) (reqs : List Request) (w : World)
    (h : StoreInv P w) : StoreInv P (runRequests w reqs) := by
  induction reqs generalizing w with
  | nil => exact h
  | cons r rs ih =>
    apply ih
    cases r with
    | update r => exact updateItemHandler_inv P hG w r h
    | claim r => exact claimItemHandler_inv P hC w r h

theorem findClaim_append {n : String} (pre : List claim) (x : claim) (post : List claim)
    (hpre : ∀ y ∈ pre, y.Claimer ≠ n) (hx : x.Claimer = n) :
    findClaim n (pre ++ x :: post) = some pre.length := by
  induction pre with
  | nil => simp [findClaim, hx]
  | cons c cs ih =>
    have hc : c.Claimer ≠ n := hpre c (List.mem_cons_self _ _)
    have := ih (fun y hy => hpre y (List.mem_cons_of_mem _ hy))
    simp [findClaim, hc, this]

theorem applyClaim_of_zero (it : item) (c : String) (q : GoInt)
    (h0 : (clampClaimed it q).val = 0) :
    applyClaim it c q =
      { it with Claims := it.Claims.filter (fun x => decide (x.Claimer ≠ c)) } := by
  have h : applyClaim it c q = removeClaimByName it c := by
    unfold applyClaim
    simp only [h0, if_true]
  rw [h]
  have := removeClaimByName_claims it c
  unfold removeClaimByName at *
  simp only [] at this
  rw [this]

theorem clampClaimed_congr (it it1 : item) (q : GoInt) (hT : it1.Target = it.Target)
    (hG : it1.Gathered = it.Gathered) : clampClaimed it1 q = clampClaimed it q := by
  unfold clampClaimed
  rw [hT, hG]

theorem clampClaimed_of_nonpos (it : item) (q : GoInt) (hq : q.val ≤ 0) :
    (clampClaimed it q).val = 0 := by
  unfold clampClaimed
  simp only []
  split_ifs <;> simp only [GoInt.zero_val] at * <;> omega

theorem clampClaimed_of_nothing_left (it : item) (q : GoInt) (hT : 0 ≤ it.Target.val)
    (hG : it.Target.val ≤ it.Gathered.val) : (clampClaimed it q).val = 0 := by
  have hGp := it.Gathered.property
  have hsub : (GoInt.sub it.Target it.Gathered).val = it.Target.val - it.Gathered.val := by
    rw [GoInt.sub_val]
    apply wrap64_of_range
    · unfold minInt; unfold maxInt at hGp; omega
    · unfold maxInt at *; omega
  unfold clampClaimed
  simp only []
  split_ifs <;> simp only [GoInt.zero_val, hsub] at * <;> omega

theorem exists_first_named {n : String} {items : List item}
    (h : ∃ it ∈ items, it.Name = n) :
    ∃ pre it post, items = pre ++ it :: post ∧ (∀ x ∈ pre, x.Name ≠ n) ∧ it.Name = n := by
  induction items with
  | nil => simp at h
  | cons x xs ih =>
    by_cases hx : x.Name = n
    · exact ⟨[], x, xs, rfl, by simp, hx⟩
    · obtain ⟨it, hit, hn⟩ := h
      have hmem : it ∈ xs := by
        rcases List.mem_cons.1 hit with rfl | hit
        · exact absurd hn hx
        · exact hit
      obtain ⟨pre, y, post, rfl, hpre, hy⟩ := ih ⟨it, hmem, hn⟩
      refine ⟨x :: pre, y, post, rfl, ?_, hy⟩
      intro z hz
      rcases List.mem_cons.1 hz with rfl | hz
      · exact hx
      · exact hpre z hz

theorem updateLoop_found (req : updateItemRequest) (pre : List item) (it : item)
    (post : List item) (hpre : ∀ x ∈ pre, x.Name ≠ req.Name) (hit : it.Name = req.Name) :
    updateLoop req (pre ++ it :: post) = (pre ++ applyGather it req.Gathered :: post, true) := by
  induction pre with
  | nil => simp [updateLoop, hit]
  | cons x xs ih =>
    have hx : x.Name ≠ req.Name := hpre x (List.mem_cons_self _ _)
    have := ih (fun y hy => hpre y (List.mem_cons_of_mem _ hy))
    simp [updateLoop, hx, this]

theorem updateLoop_not_found (req : updateItemRequest) (items : List item)
    (h : ∀ x ∈ items, x.Name ≠ req.Name) : updateLoop req items = (items, false) := by
  induction items with
  | nil => rfl
  | cons x xs ih =>
    have hx : x.Name ≠ req.Name := h x (List.mem_cons_self _ _)
    have := ih (fun y hy => h y (List.mem_cons_of_mem _ hy))
    simp [updateLoop, hx, this]

theorem claimLoop_found (req : claimItemRequest) (pre : List item) (it : item)
    (post : List item) (hpre : ∀ x ∈ pre, x.Name ≠ req.Name) (hit : it.Name = req.Name) :
    claimLoop req (pre ++ it :: post) =
      (pre ++ applyClaim it req.Claimer req.Claimed :: post, true) := by
  induction pre with
  | nil => simp [claimLoop, hit]
  | cons x xs ih =>
    have hx : x.Name ≠ req.Name := hpre x (List.mem_cons_self _ _)
    have := ih (fun y hy => hpre y (List.mem_cons_of_mem _ hy))
    simp [claimLoop, hx, this]

theorem claimLoop_not_found (req : claimItemRequest) (items : List item)
    (h : ∀ x ∈ items, x.Name ≠ req.Name) : claimLoop req items = (items, false) := by
  induction items with
  | nil => rfl
  | cons x xs ih =>
    have hx : x.Name ≠ req.Name := h x (List.mem_cons_self _ _)
    have := ih (fun y hy => h y (List.mem_cons_of_mem _ hy))
    simp [claimLoop, hx, this]

theorem updateLoop_updated (req : updateItemRequest) (items : List item) :
    (updateLoop req items).2 = true ↔ ∃ it ∈ items, it.Name = req.Name := by
  by_cases h : ∃ it ∈ items, it.Name = req.Name
  · obtain ⟨pre, it, post, rfl, hpre, hit⟩ := exists_first_named h
    simp only [updateLoop_found req pre it post hpre hit, true_iff]
    exact h
  · have hno : ∀ x ∈ items, x.Name ≠ req.Name := fun x hx hn => h ⟨x, hx, hn⟩
    simp only [updateLoop_not_found req items hno, Bool.false_eq_true, false_iff]
    exact h

theorem claimLoop_updated (req : claimItemRequest) (items : List item) :
    (claimLoop req items).2 = true ↔ ∃ it ∈ items, it.Name = req.Name := by
  by_cases h : ∃ it ∈ items, it.Name = req.Name
  · obtain ⟨pre, it, post, rfl, hpre, hit⟩ := exists_first_named h
    simp only [claimLoop_found req pre it post hpre hit, true_iff]
    exact h
  · have hno : ∀ x ∈ items, x.Name ≠ req.Name := fun x hx hn => h ⟨x, hx, hn⟩
    simp only [claimLoop_not_found req items hno, Bool.false_eq_true, false_iff]
    exact h

/-- What `updateItemHandler` does with a decoded POST on a readable and
writable store. -/
theorem updateItemHandler_post (w : World) (items : List item) (req : updateItemRequest)
    (hw : w.writeErr = none) (hr : readItems w.file = some items) :
    updateItemHandler w ⟨"POST", some req⟩ =
      if (updateLoop req items).2 = true then
        (⟨200, "\x7b\"success\":true\x7d"⟩,
          { file := .present (updateLoop req items).1, writeErr := none,
            broker := w.broker.broadcast ⟨"update", (updateLoop req items).1⟩ })
      else (⟨404, "\x7b\"error\":\"Item not found\"\x7d"⟩, w) := by
  unfold updateItemHandler
  simp only [hr, writeItems, hw, ne_eq, not_true_eq_false, if_false]
  cases (updateLoop req items).2 <;> simp

/-- What `claimItemHandler` does with a decoded POST on a readable and
writable store. -/
theorem claimItemHandler_post (w : World) (items : List item) (req : claimItemRequest)
    (hw : w.writeErr = none) (hr : readItems w.file = some items) :
    claimItemHandler w ⟨"POST", some req⟩ =
      if trimSpace req.Claimer = "" then
        (⟨400, "\x7b\"error\":\"Claimer required\"\x7d"⟩, w)
      else if (claimLoop { req with Claimer := trimSpace req.Claimer } items).2 = true then
        (⟨200, "\x7b\"success\":true\x7d"⟩,
          { file := .present (claimLoop { req with Claimer := trimSpace req.Claimer } items).1,
            writeErr := none,
            broker := w.broker.broadcast
              ⟨"update", (claimLoop { req with Claimer := trimSpace req.Claimer } items).1⟩ })
      else (⟨404, "\x7b\"error\":\"Item not found\"\x7d"⟩, w) := by
  unfold claimItemHandler
  simp only [hr, writeItems, hw, ne_eq, not_true_eq_false, if_false]
  split_ifs with h1 h2 <;> simp_all

/-! ## The broker -/

theorem lookup_broadcastStep {α : Type} (msg : α) (m : AList (fun _ : Nat => Chan α))
    (k id : Nat) :
    (broadcastStep msg m k).lookup id =
      if id = k then (m.lookup k).bind (fun ch => ch.trySend msg) else m.lookup id := by
  unfold broadcastStep
  cases hk : m.lookup k with
  | none =>
    by_cases h : id = k
    · subst h; simp [hk]
    · simp [h]
  | some ch =>
    cases hs : ch.trySend msg with
    | none =>
      by_cases h : id = k
      · subst h; simp [hs, AList.lookup_erase]
      · simp [h, hs, AList.lookup_erase_ne h]
    | some ch1 =>
      by_cases h : id = k
      · subst h; simp [hs, AList.lookup_insert]
      · simp [h, hs, AList.lookup_insert_ne h]

theorem lookup_foldl_broadcastStep {α : Type} (msg : α) (ks : List Nat) (hks : ks.Nodup)
    (m : AList (fun _ : Nat => Chan α)) (id : Nat) :
    (ks.foldl (broadcastStep msg) m).lookup id =
      if id ∈ ks then (m.lookup id).bind (fun ch => ch.trySend msg) else m.lookup id := by
  induction ks generalizing m with
  | nil => simp
  | cons k ks ih =>
    obtain ⟨hk, hks1⟩ := List.nodup_cons.1 hks
    rw [List.foldl_cons, ih hks1, lookup_broadcastStep]
    by_cases h : id = k
    · subst h
      simp [hk]
    · simp [h]

theorem lookup_broadcast {α : Type} (b : sseBroker α) (msg : α) (id : Nat) :
    (b.broadcast msg).clients.lookup id =
      (b.clients.lookup id).bind (fun ch => ch.trySend msg) := by
  unfold sseBroker.broadcast
  simp only []
  rw [lookup_foldl_broadcastStep msg _ b.clients.keys_nodup]
  by_cases h : id ∈ b.clients.keys
  · simp [h]
  · have hnone : b.clients.lookup id = none := AList.lookup_eq_none.2 h
    simp [h, hnone]

theorem lookup_subscribe {α : Type} (b : sseBroker α) :
    (subscribe b).1.clients.lookup (subscribe b).2 = some ⟨4, []⟩ := by
  unfold subscribe sseBroker.addClient Chan.make
  simp [AList.lookup_insert]

/-! ## The order on strings and `cleanupBackups` -/

theorem char_eq_of_toNat {a b : Char} (h : a.toNat = b.toNat) : a = b :=
  Char.ext (UInt32.ext h)

theorem lessChars_asymm : ∀ (a b : List Char), lessChars a b = true → lessChars b a = false
  | _, [] => by simp [lessChars]
  | [], _ :: _ => by simp [lessChars]
  | x :: xs, y :: ys => by
    intro h
    unfold lessChars at h ⊢
    split_ifs at h ⊢
    all_goals first | omega | rfl | exact lessChars_asymm xs ys h

theorem lessChars_trichotomy :
    ∀ (a b : List Char), lessChars a b = false → lessChars b a = false → a = b
  | [], [] => by simp
  | [], _ :: _ => by simp [lessChars]
  | _ :: _, [] => by simp [lessChars]
  | x :: xs, y :: ys => by
    intro h1 h2
    unfold lessChars at h1 h2
    split_ifs at h1 h2
    have hxy : x = y := char_eq_of_toNat (by omega)
    rw [hxy, lessChars_trichotomy xs ys h1 h2]

theorem lessChars_trans :
    ∀ (a b c : List Char), lessChars a b = true → lessChars b c = true → lessChars a c = true
  | _, [], _ => by simp [lessChars]
  | _, _ :: _, [] => by simp [lessChars]
  | [], _ :: _, _ :: _ => by simp [lessChars]
  | x :: xs, y :: ys, z :: zs => by
    intro h1 h2
    unfold lessChars at h1 h2 ⊢
    split_ifs at h1 h2 ⊢
    all_goals first | omega | rfl | exact lessChars_trans xs ys zs h1 h2

theorem stringLess_of_not_ge {a b : String} (h : stringLess b a = false) (hne : a ≠ b) :
    stringLess a b = true := by
  by_contra hc
  have hf : stringLess a b = false := by simpa using hc
  exact hne (String.ext (lessChars_trichotomy a.data b.data hf h))

theorem stringLess_trans {a b c : String} (h1 : stringLess a b = true)
    (h2 : stringLess b c = true) : stringLess a c = true :=
  lessChars_trans a.data b.data c.data h1 h2

theorem notLess_total (a b : String) : stringLess b a = false ∨ stringLess a b = false := by
  by_cases h : stringLess a b = true
  · exact Or.inl (lessChars_asymm a.data b.data h)
  · exact Or.inr (by simpa using h)

theorem notLess_trans {a b c : String} (h1 : stringLess b a = false)
    (h2 : stringLess c b = false) : stringLess c a = false := by
  by_contra hc
  have hca : stringLess c a = true := by simpa using hc
  by_cases hab : a = b
  · subst hab
    rw [hca] at h2
    exact Bool.noConfusion h2
  · have := stringLess_trans hca (stringLess_of_not_ge h1 hab)
    rw [this] at h2
    exact Bool.noConfusion h2

theorem sortStrings_perm (xs : List String) : (sortStrings xs).Perm xs :=
  List.perm_insertionSort _ xs

theorem sortStrings_sorted (xs : List String) :
    (sortStrings xs).Pairwise (fun a b => stringLess b a = false) :=
  @List.sorted_insertionSort String (fun a b => stringLess b a = false) _
    ⟨notLess_total⟩ ⟨fun _ _ _ h1 h2 => notLess_trans h1 h2⟩ xs

theorem foldl_collect (entries : List DirEntry) (acc : List String) :
    entries.foldl (fun backups e => if isBackup e = true then backups ++ [e.name] else backups) acc
      = acc ++ (entries.filter isBackup).map DirEntry.name := by
  induction entries generalizing acc with
  | nil => simp
  | cons e es ih =>
    simp only [List.foldl_cons, ih, List.filter_cons]
    split_ifs <;> simp

theorem listBackups_eq (entries : List DirEntry) :
    listBackups entries = (entries.filter isBackup).map DirEntry.name := by
  unfold listBackups
  rw [foldl_collect]
  simp

theorem foldl_osRemove (names : List String) (dir : List DirEntry) :
    names.foldl osRemove dir = dir.filter (fun e => decide (e.name ∉ names)) := by
  induction names generalizing dir with
  | nil => simp
  | cons n ns ih =>
    rw [List.foldl_cons, ih]
    unfold osRemove
    rw [List.filter_filter]
    apply List.filter_congr
    intro e _
    simp only [List.mem_cons, not_or, ne_eq, decide_not, Bool.decide_and]
    rw [Bool.and_comm]

theorem removalLoop_eq (l : List String) : removalLoop l = l.take (l.length - 50) := by
  induction l with
  | nil => rfl
  | cons b bs ih =>
    unfold removalLoop
    split_ifs with h
    · rw [ih]
      simp only [List.length_cons] at h ⊢
      have : bs.length + 1 - 50 = (bs.length - 50) + 1 := by omega
      rw [this, List.take_succ_cons]
    · simp only [List.length_cons] at h ⊢
      have : bs.length + 1 - 50 = 0 := by omega
      rw [this, List.take_zero]

theorem cleanupBackups_eq (dir : List DirEntry) :
    cleanupBackups true dir =
      dir.filter (fun e => decide (e.name ∉ removalLoop (sortStrings (listBackups dir)))) := by
  unfold cleanupBackups
  simp only [Bool.not_true, Bool.false_eq_true, if_false]
  exact foldl_osRemove _ _

theorem listBackups_filter (dir : List DirEntry) (D : List String) :
    listBackups (dir.filter (fun e => decide (e.name ∉ D))) =
      (listBackups dir).filter (fun n => decide (n ∉ D)) := by
  rw [listBackups_eq, listBackups_eq, List.filter_map, List.filter_filter, List.filter_filter]
  congr 1
  apply List.filter_congr
  intro e _
  simp only [Function.comp]
  rw [Bool.and_comm]

theorem listBackups_nodup {dir : List DirEntry} (h : (dir.map DirEntry.name).Nodup) :
    (listBackups dir).Nodup := by
  rw [listBackups_eq]
  exact h.sublist ((List.filter_sublist _).map _)

theorem mem_listBackups {dir : List DirEntry} {n : String} :
    n ∈ listBackups dir ↔ ∃ e ∈ dir, isBackup e = true ∧ e.name = n := by
  rw [listBackups_eq]
  simp only [List.mem_map, List.mem_filter]
  constructor
  · rintro ⟨e, ⟨he, hb⟩, hn⟩
    exact ⟨e, he, hb, hn⟩
  · rintro ⟨e, he, hb, hn⟩
    exact ⟨e, ⟨he, hb⟩, hn⟩

theorem filter_not_mem_left {D K : List String} (hnd : (D ++ K).Nodup) :
    (D ++ K).filter (fun n => decide (n ∉ D)) = K := by
  have hdisj := (List.nodup_append.1 hnd).2.2
  rw [List.filter_append]
  have h1 : D.filter (fun n => decide (n ∉ D)) = [] := by
    rw [List.filter_eq_nil_iff]
    intro a ha
    simp [ha]
  have h2 : K.filter (fun n => decide (n ∉ D)) = K := by
    rw [List.filter_eq_self]
    intro a ha
    have : a ∉ D := fun hc => hdisj hc ha
    simp [this]
  rw [h1, h2, List.nil_append]

theorem filter_not_mem_take_of_nodup {S : List String} (hS : S.Nodup) (m : Nat) :
    S.filter (fun n => decide (n ∉ S.take m)) = S.drop m := by
  have hsplit : S.take m ++ S.drop m = S := List.take_append_drop m S
  have hnd : (S.take m ++ S.drop m).Nodup := by rw [hsplit]; exact hS
  have h := filter_not_mem_left hnd
  rw [hsplit] at h
  exact h

/-- The archives left by `cleanupBackups` are, up to order, the sorted names
without their first `length - 50`. -/
theorem kept_perm (dir : List DirEntry) (hnd : (dir.map DirEntry.name).Nodup) :
    (listBackups (cleanupBackups true dir)).Perm
      ((sortStrings (listBackups dir)).drop ((listBackups dir).length - 50)) := by
  have hperm := sortStrings_perm (listBackups dir)
  have hSnd : (sortStrings (listBackups dir)).Nodup :=
    hperm.nodup_iff.2 (listBackups_nodup hnd)
  rw [cleanupBackups_eq, listBackups_filter, removalLoop_eq, hperm.length_eq]
  rw [← filter_not_mem_take_of_nodup hSnd]
  exact (hperm.filter _).symm

theorem kept_subset (dir : List DirEntry) :
    ∀ k ∈ listBackups (cleanupBackups true dir), k ∈ listBackups dir := by
  intro k hk
  rw [cleanupBackups_eq, listBackups_filter] at hk
  exact List.mem_of_mem_filter hk

theorem kept_length (dir : List DirEntry) (hnd : (dir.map DirEntry.name).Nodup) :
    (listBackups (cleanupBackups true dir)).length = min (listBackups dir).length 50 := by
  rw [(kept_perm dir hnd).length_eq, List.length_drop, (sortStrings_perm _).length_eq]
  omega

theorem deleted_less_kept (dir : List DirEntry) (hnd : (dir.map DirEntry.name).Nodup) :
    ∀ a ∈ listBackups dir, a ∉ listBackups (cleanupBackups true dir) →
      ∀ k ∈ listBackups (cleanupBackups true dir), stringLess a k = true := by
  intro a ha hna k hk
  have hperm := sortStrings_perm (listBackups dir)
  have hkp := kept_perm dir hnd
  have hkd : k ∈ (sortStrings (listBackups dir)).drop ((listBackups dir).length - 50) :=
    hkp.mem_iff.1 hk
  have had : a ∉ (sortStrings (listBackups dir)).drop ((listBackups dir).length - 50) :=
    fun hc => hna (hkp.mem_iff.2 hc)
  have haS : a ∈ sortStrings (listBackups dir) := hperm.mem_iff.2 ha
  have hsplit := List.take_append_drop ((listBackups dir).length - 50)
    (sortStrings (listBackups dir))
  have hat : a ∈ (sortStrings (listBackups dir)).take ((listBackups dir).length - 50) := by
    rw [← hsplit] at haS
    rcases List.mem_append.1 haS with h | h
    · exact h
    · exact absurd h had
  have hsorted := sortStrings_sorted (listBackups dir)
  rw [← hsplit] at hsorted
  have hle := (List.pairwise_append.1 hsorted).2.2 a hat k hkd
  apply stringLess_of_not_ge hle
  intro hak
  subst hak
  exact had hkd

theorem cleanupBackups_of_le (dir : List DirEntry) (h : (listBackups dir).length ≤ 50) :
    cleanupBackups true dir = dir := by
  rw [cleanupBackups_eq, removalLoop_eq, (sortStrings_perm _).length_eq]
  have : (listBackups dir).length - 50 = 0 := by omega
  rw [this, List.take_zero]
  simp

theorem cleanupBackups_sublist (readDirOk : Bool) (dir : List DirEntry) :
    (cleanupBackups readDirOk dir).Sublist dir := by
  cases readDirOk with
  | false => unfold cleanupBackups; simp
  | true => rw [cleanupBackups_eq]; exact List.filter_sublist _

theorem removed_isBackup (dir : List DirEntry) (hnd : (dir.map DirEntry.name).Nodup) :
    ∀ e ∈ dir, e ∉ cleanupBackups true dir → isBackup e = true := by
  intro e he hne
  rw [cleanupBackups_eq, List.mem_filter] at hne
  have hin : e.name ∈ removalLoop (sortStrings (listBackups dir)) := by
    by_contra hc
    exact hne ⟨he, by simpa using hc⟩
  rw [removalLoop_eq] at hin
  have hL : e.name ∈ listBackups dir :=
    (sortStrings_perm _).mem_iff.1 (List.mem_of_mem_take hin)
  obtain ⟨e1, he1, hb, hn⟩ := mem_listBackups.1 hL
  have : e1 = e := List.inj_on_of_nodup_map hnd he1 he hn
  rw [← this]
  exact hb

/-! ## Backup cycles -/

theorem backupName_data (t : String) :
    (backupName t).data = "items-".data ++ t.data ++ ".json".data := by
  unfold backupName
  simp [String.data_append]

theorem backupName_injective {t1 t2 : String} (h : backupName t1 = backupName t2) : t1 = t2 := by
  have hd := congrArg String.data h
  rw [backupName_data, backupName_data] at hd
  have h1 := List.append_cancel_right hd
  exact String.ext (List.append_cancel_left h1)

theorem isBackup_backupName (t : String) : isBackup ⟨backupName t, false⟩ = true := by
  unfold isBackup hasPrefix hasSuffix
  simp only [backupName_data, List.reverse_append, Bool.not_false, Bool.true_and,
    Bool.and_eq_true, List.isPrefixOf_iff_prefix, List.append_assoc]
  exact ⟨List.prefix_append _ _, List.prefix_append _ _⟩

/-- One cleaned-up addition keeps the retention invariant. -/
theorem retained_step {K all K1 K2 : List String} {bn : String} (hinv : Retained K all)
    (hK : K.Nodup) (hK1 : K1.Nodup) (hmem : ∀ x, x ∈ K1 ↔ x ∈ K ∨ x = bn)
    (hsub : ∀ k ∈ K2, k ∈ K1) (hlen : K2.length = min K1.length 50)
    (hless : ∀ a ∈ K1, a ∉ K2 → ∀ k ∈ K2, stringLess a k = true)
    (hsame : K1.length ≤ 50 → K2 = K1) :
    Retained K2 (all ++ [bn]) := by
  obtain ⟨hKall, hKout⟩ := hinv
  refine ⟨?_, ?_⟩
  · intro k hk
    rcases (hmem k).1 (hsub k hk) with h | h
    · exact List.mem_append_left _ (hKall k h)
    · exact List.mem_append_right _ (by simp [h])
  · intro a ha haK2
    by_cases haK1 : a ∈ K1
    · have hbig : 50 < K1.length := by
        by_contra hc
        have := hsame (by omega)
        rw [this] at haK2
        exact haK2 haK1
      exact ⟨by omega, hless a haK1 haK2⟩
    · have haK : a ∉ K := fun hc => haK1 ((hmem a).2 (Or.inl hc))
      have habn : a ≠ bn := fun hc => haK1 ((hmem a).2 (Or.inr hc))
      have haall : a ∈ all := by
        rcases List.mem_append.1 ha with h | h
        · exact h
        · exact absurd (by simpa using h) habn
      obtain ⟨hK50, hKless⟩ := hKout a haall haK
      have hKK1 : K.length ≤ K1.length :=
        (List.subperm_of_subset hK (fun x hx => (hmem x).2 (Or.inl hx))).length_le
      refine ⟨by omega, ?_⟩
      intro k hk
      rcases (hmem k).1 (hsub k hk) with h | h
      · exact hKless k h
      · subst h
        by_cases hkK : k ∈ K
        · exact hKless k hkK
        · have hcons : (k :: K).Nodup := List.nodup_cons.2 ⟨hkK, hK⟩
          have h51 : (k :: K).length ≤ K1.length :=
            (List.subperm_of_subset hcons (fun x hx => by
              rcases List.mem_cons.1 hx with rfl | hx
              · exact (hmem x).2 (Or.inr rfl)
              · exact (hmem x).2 (Or.inl hx))).length_le
          simp only [List.length_cons] at h51
          have hex : ∃ m ∈ K1, m ∉ K2 := by
            by_contra hc
            have hall : ∀ m ∈ K1, m ∈ K2 := fun m hm => by
              by_contra hm2
              exact hc ⟨m, hm, hm2⟩
            have := (List.subperm_of_subset hK1 hall).length_le
            omega
          obtain ⟨m, hm1, hm2⟩ := hex
          have hmK : m ∈ K := by
            rcases (hmem m).1 hm1 with h | h
            · exact h
            · subst h; exact absurd hk hm2
          exact stringLess_trans (hKless m hmK) (hless m hm1 hm2 k hk)

/-- A cycle that writes its archive keeps the directory's names distinct, adds
no directory, and keeps the retention invariant. -/
theorem performBackup_step (c : Cycle) (dir : List DirEntry) (all : List String)
    (hc : c.archives) (hnd : (dir.map DirEntry.name).Nodup)
    (hdir : ∀ e ∈ dir, e.name = backupName c.timestamp → e.isDir = false)
    (hinv : Retained (listBackups dir) all) :
    ((performBackup c dir).map DirEntry.name).Nodup ∧
    (∀ e ∈ performBackup c dir, e ∈ dir ∨ e.isDir = false) ∧
    (listBackups (performBackup c dir)).length ≤ 50 ∧
    Retained (listBackups (performBackup c dir)) (all ++ [backupName c.timestamp]) := by
  obtain ⟨⟨items, hread, hne⟩, hmk, hwr, hrd⟩ := hc
  have hlen : ¬ items.length = 0 := fun h => hne (List.length_eq_zero.1 h)
  have hnodir : dir.any (fun e => decide (e.name = backupName c.timestamp) && e.isDir) = false := by
    rw [List.any_eq_false]
    intro e he
    by_cases hn : e.name = backupName c.timestamp
    · simp [hdir e he hn]
    · simp [hn]
  have hpb : performBackup c dir = cleanupBackups true
      (if dir.any (fun e => decide (e.name = backupName c.timestamp)) = true then dir
       else dir ++ [⟨backupName c.timestamp, false⟩]) := by
    unfold performBackup
    simp only [hread, hlen, hmk, hwr, hrd, hnodir, if_false, Bool.not_true, Bool.false_eq_true,
      Bool.or_self]
  rw [hpb]
  by_cases hex : dir.any (fun e => decide (e.name = backupName c.timestamp)) = true
  · rw [if_pos hex]
    obtain ⟨e, he, hen⟩ := List.any_eq_true.1 hex
    have hen1 : e.name = backupName c.timestamp := by simpa using hen
    have hfile : e = ⟨backupName c.timestamp, false⟩ := by
      cases e with
      | mk n d =>
        simp only [] at hen1
        have := hdir _ he hen1
        simp only [] at this
        rw [hen1, this]
    have hbnK : backupName c.timestamp ∈ listBackups dir :=
      mem_listBackups.2 ⟨e, he, by rw [hfile]; exact isBackup_backupName _, hen1⟩
    refine ⟨(cleanupBackups_sublist true dir).map _ |>.nodup hnd, ?_, ?_, ?_⟩
    · intro x hx
      exact Or.inl ((cleanupBackups_sublist true dir).subset hx)
    · rw [kept_length dir hnd]; omega
    · exact retained_step hinv (listBackups_nodup hnd) (listBackups_nodup hnd)
        (fun x => ⟨fun h => Or.inl h, fun h => by
          rcases h with h | h
          · exact h
          · rw [h]; exact hbnK⟩)
        (kept_subset dir) (kept_length dir hnd) (deleted_less_kept dir hnd)
        (fun h => by rw [cleanupBackups_of_le dir h])
  · rw [if_neg hex]
    have hfresh : backupName c.timestamp ∉ dir.map DirEntry.name := by
      intro hin
      obtain ⟨e, he, hen⟩ := List.mem_map.1 hin
      exact hex (List.any_eq_true.2 ⟨e, he, by simpa using hen⟩)
    have hnd1 : ((dir ++ [DirEntry.mk (backupName c.timestamp) false]).map DirEntry.name).Nodup := by
      rw [List.map_append]
      refine List.Nodup.append hnd (by simp) ?_
      intro a ha hb
      simp only [List.map_cons, List.map_nil, List.mem_singleton] at hb
      subst hb
      exact hfresh ha
    have hK1 : listBackups (dir ++ [⟨backupName c.timestamp, false⟩]) =
        listBackups dir ++ [backupName c.timestamp] := by
      rw [listBackups_eq, listBackups_eq, List.filter_append, List.map_append]
      simp [List.filter_cons, isBackup_backupName]
    refine ⟨(cleanupBackups_sublist true _).map _ |>.nodup hnd1, ?_, ?_, ?_⟩
    · intro x hx
      have := (cleanupBackups_sublist true _).subset hx
      rcases List.mem_append.1 this with h | h
      · exact Or.inl h
      · right
        have hx1 : x = ⟨backupName c.timestamp, false⟩ := by simpa using h
        rw [hx1]
    · rw [kept_length _ hnd1]; omega
    · exact retained_step hinv (listBackups_nodup hnd) (listBackups_nodup hnd1)
        (fun x => by rw [hK1]; simp)
        (kept_subset _) (kept_length _ hnd1) (deleted_less_kept _ hnd1)
        (fun h => by rw [cleanupBackups_of_le _ h])

theorem runCycles_retained (cs : List Cycle) (dir : List DirEntry) (all : List String)
    (hcs : ∀ c ∈ cs, c.archives) (hnd : (dir.map DirEntry.name).Nodup)
    (hdir : ∀ c ∈ cs, ∀ e ∈ dir, e.name = backupName c.timestamp → e.isDir = false)
    (hinv : Retained (listBackups dir) all) :
    (cs ≠ [] → (listBackups (runCycles dir cs)).length ≤ 50) ∧
    Retained (listBackups (runCycles dir cs))
      (all ++ cs.map (fun c => backupName c.timestamp)) := by
  induction cs generalizing dir all with
  | nil =>
    refine ⟨fun h => absurd rfl h, ?_⟩
    simpa [runCycles] using hinv
  | cons c cs ih =>
    obtain ⟨hnd1, hdirs, hlen, hinv1⟩ :=
      performBackup_step c dir all (hcs c (List.mem_cons_self _ _)) hnd
        (hdir c (List.mem_cons_self _ _)) hinv
    have hdir1 : ∀ c1 ∈ cs, ∀ e ∈ performBackup c dir,
        e.name = backupName c1.timestamp → e.isDir = false := by
      intro c1 hc1 e he hn
      rcases hdirs e he with h | h
      · exact hdir c1 (List.mem_cons_of_mem _ hc1) e h hn
      · exact h
    obtain ⟨hlen2, hinv2⟩ := ih (performBackup c dir) (all ++ [backupName c.timestamp])
      (fun c1 hc1 => hcs c1 (List.mem_cons_of_mem _ hc1)) hnd1 hdir1 hinv1
    refine ⟨fun _ => ?_, ?_⟩
    · cases cs with
      | nil => simpa [runCycles] using hlen
      | cons c2 cs2 => exact hlen2 (by simp)
    · simpa [runCycles, List.append_assoc] using hinv2

/-! ## Handlers run one after another -/

theorem get?_append_length (done : List Proc) (p : Proc) (tail : List Proc) :
    (done ++ p :: tail).get? done.length = some p := by
  induction done with
  | nil => rfl
  | cons d ds ih => simpa using ih

theorem set_append_length (done : List Proc) (p q : Proc) (tail : List Proc) :
    (done ++ p :: tail).set done.length q = done ++ q :: tail := by
  induction done with
  | nil => rfl
  | cons d ds ih => simp

/-- Running both parts of a handler back to back is the handler. -/
theorem step_read_write (w : World) (done : List Proc) (r : Request) (tail : List Proc) :
    (Sys.step (Sys.step ⟨w, done ++ .start r :: tail⟩ (.read done.length))
        (.write done.length)) =
      ⟨(handle w r).2, done ++ .finished (handle w r).1 :: tail⟩ := by
  simp only [Sys.step, get?_append_length, set_append_length]
  cases r with
  | update r =>
    simp only [beginRequest, handle, updateItemHandler]
    by_cases hm : r.method = "POST"
    · simp only [hm, ne_eq, not_true_eq_false, if_false]
      cases r.body with
      | none => simp only [get?_append_length]
      | some req =>
        cases readItems w.file with
        | none => simp only [get?_append_length]
        | some items => simp only [get?_append_length, set_append_length, finishRequest]
    · simp only [hm, ne_eq, not_false_eq_true, if_true, get?_append_length]
  | claim r =>
    simp only [beginRequest, handle, claimItemHandler]
    by_cases hm : r.method = "POST"
    · simp only [hm, ne_eq, not_true_eq_false, if_false]
      cases r.body with
      | none => simp only [get?_append_length]
      | some req =>
        by_cases hc : trimSpace req.Claimer = ""
        · simp only [hc, if_true, get?_append_length]
        · simp only [hc, if_false]
          cases readItems w.file with
          | none => simp only [get?_append_length]
          | some items => simp only [get?_append_length, set_append_length, finishRequest]
    · simp only [hm, ne_eq, not_false_eq_true, if_true, get?_append_length]

theorem run_serialFrom (reqs : List Request) (w : World) (done : List Proc) :
    Sys.run ⟨w, done ++ reqs.map Proc.start⟩ (serialFrom done.length reqs.length) =
      ⟨runRequests w reqs, done ++ (runResponses w reqs).map Proc.finished⟩ := by
  induction reqs generalizing w done with
  | nil => rfl
  | cons r rs ih =>
    simp only [List.map_cons, List.length_cons, serialFrom, Sys.run, List.foldl_cons]
    rw [step_read_write]
    have h := ih (handle w r).2 (done ++ [.finished (handle w r).1])
    simp only [Sys.run, List.length_append, List.length_singleton, List.append_assoc,
      List.singleton_append] at h
    rw [h]
    simp [runRequests, runResponses]

/-! ## The claims -/

/-- C1: from a collection in which every item has `target ≥ 0` and
`0 ≤ gathered ≤ target`, any finite sequence of requests to `updateItemHandler`
and `claimItemHandler` (any method, any body, any name, claimer and integers)
leaves a collection in which every item still has `0 ≤ gathered ≤ target`. -/
theorem gathered_within_target_after_requests (w : World) (items : List item)
    (reqs : List Request) (hw : w.writeErr = none) (hf : w.file = .present items)
    (h : ∀ it ∈ items, 0 ≤ it.Target.val ∧ 0 ≤ it.Gathered.val ∧
      it.Gathered.val ≤ it.Target.val) :
    ∃ items1, (runRequests w reqs).file = .present items1 ∧
      ∀ it ∈ items1, 0 ≤ it.Gathered.val ∧ it.Gathered.val ≤ it.Target.val := by
  have hinv : StoreInv GatheredOk (runRequests w reqs) :=
    runRequests_inv GatheredOk (fun it g hi => applyGather_GatheredOk it g hi.1)
      (fun it c q hi => applyClaim_GatheredOk it c q hi) reqs w ⟨hw, items, hf, h⟩
  obtain ⟨_, items1, h1, h2⟩ := hinv
  exact ⟨items1, h1, fun it hit => (h2 it hit).2⟩

/-- C2: on an item with `target ≥ 0`, `0 ≤ gathered ≤ target` and every claim
inside `0 ≤ claim_start ≤ claim_end ≤ target`, a claim request (any claimer, any
integer quantity) leaves every claim inside that range, and so does a gather
update that follows it. -/
theorem claim_ranges_within_target (it : item) (c : String) (q : GoInt)
    (hT : 0 ≤ it.Target.val)
    (hG : 0 ≤ it.Gathered.val ∧ it.Gathered.val ≤ it.Target.val)
    (hC : ∀ x ∈ it.Claims, 0 ≤ x.ClaimStart.val ∧ x.ClaimStart.val ≤ x.ClaimEnd.val ∧
      x.ClaimEnd.val ≤ it.Target.val) :
    (∀ x ∈ (applyClaim it c q).Claims, 0 ≤ x.ClaimStart.val ∧
      x.ClaimStart.val ≤ x.ClaimEnd.val ∧ x.ClaimEnd.val ≤ (applyClaim it c q).Target.val) ∧
    ∀ g : GoInt, ∀ x ∈ (applyGather (applyClaim it c q) g).Claims, 0 ≤ x.ClaimStart.val ∧
      x.ClaimStart.val ≤ x.ClaimEnd.val ∧
      x.ClaimEnd.val ≤ (applyGather (applyClaim it c q) g).Target.val := by
  have h := applyClaim_ClaimsOk it c q ⟨hT, hG.1, hG.2⟩ hC
  exact ⟨h, fun _ => h⟩

/-- C3: from a collection in which no item has two claims of the same claimer
(for instance items without claims), any finite sequence of claim and gather
requests leaves a collection in which no item has two claims of the same
claimer. -/
theorem one_claim_per_claimer (w : World) (items : List item) (reqs : List Request)
    (hw : w.writeErr = none) (hf : w.file = .present items)
    (h : ∀ it ∈ items, (it.Claims.map claim.Claimer).Nodup) :
    ∃ items1, (runRequests w reqs).file = .present items1 ∧
      ∀ it ∈ items1, (it.Claims.map claim.Claimer).Nodup := by
  have hinv : StoreInv ClaimersDistinct (runRequests w reqs) :=
    runRequests_inv ClaimersDistinct (fun _ _ hi => hi)
      (fun it c q hi => applyClaim_ClaimersDistinct it c q hi) reqs w ⟨hw, items, hf, h⟩
  obtain ⟨_, items1, h1, h2⟩ := hinv
  exact ⟨items1, h1, h2⟩

/-- C4: on an item with `0 ≤ gathered ≤ target`, a claim by `c` of a quantity
whose clamped value `k = min (max q 0) (target - gathered)` is positive gives
`c` the range `[gathered, gathered + k)`: appended at the end when `c` held no
claim, written over `c`'s first claim in place otherwise; the other claims,
their order, and the item's name, target and gathered are unchanged. -/
theorem claim_positive_sets_range (it : item) (c : String) (q : GoInt)
    (hG : 0 ≤ it.Gathered.val ∧ it.Gathered.val ≤ it.Target.val)
    (hk : 0 < min (max q.val 0) (it.Target.val - it.Gathered.val)) :
    ∃ e : GoInt, e.val = it.Gathered.val + min (max q.val 0) (it.Target.val - it.Gathered.val) ∧
      (applyClaim it c q).Name = it.Name ∧
      (applyClaim it c q).Target = it.Target ∧
      (applyClaim it c q).Gathered = it.Gathered ∧
      ((∀ x ∈ it.Claims, x.Claimer ≠ c) →
        (applyClaim it c q).Claims = it.Claims ++ [⟨c, it.Gathered, e⟩]) ∧
      (∀ pre x post, it.Claims = pre ++ x :: post → (∀ y ∈ pre, y.Claimer ≠ c) →
        x.Claimer = c → (applyClaim it c q).Claims = pre ++ ⟨c, it.Gathered, e⟩ :: post) := by
  have hval := clampClaimed_val it q hG
  have hT := it.Target.property
  have hne : ¬ (clampClaimed it q).val = 0 := by omega
  refine ⟨GoInt.add it.Gathered (clampClaimed it q), ?_, applyClaim_Name it c q,
    applyClaim_Target it c q, applyClaim_Gathered it c q, ?_, ?_⟩
  · rw [GoInt.add_val, ← hval]
    apply wrap64_of_range
    · unfold minInt; omega
    · unfold maxInt at *; omega
  · intro hno
    unfold applyClaim getClaimByName
    simp only [hne, if_false, findClaim_eq_none.2 hno]
  · intro pre x post hdec hpre hx
    unfold applyClaim getClaimByName
    simp only [hne, if_false, hdec, findClaim_append pre x post hpre hx, setRange_append, hx]

/-- C5: when the clamped quantity is 0 (which is so when `q ≤ 0`, and when
nothing remains, `gathered ≥ target`, on an item with `target ≥ 0`), a claim by
`c` removes the claims of `c` and keeps all others in their order; if `c` held
no claim the item is unchanged, and applying the request again changes
nothing. -/
theorem claim_zero_removes (it : item) (c : String) (q : GoInt)
    (h : q.val ≤ 0 ∨ (0 ≤ it.Target.val ∧ it.Target.val ≤ it.Gathered.val) ∨
      (clampClaimed it q).val = 0) :
    applyClaim it c q =
      { it with Claims := it.Claims.filter (fun x => decide (x.Claimer ≠ c)) } ∧
    (∀ x ∈ (applyClaim it c q).Claims, x.Claimer ≠ c) ∧
    ((∀ x ∈ it.Claims, x.Claimer ≠ c) → applyClaim it c q = it) ∧
    applyClaim (applyClaim it c q) c q = applyClaim it c q := by
  have h0 : (clampClaimed it q).val = 0 := by
    rcases h with h | h | h
    · exact clampClaimed_of_nonpos it q h
    · exact clampClaimed_of_nothing_left it q h.1 h.2
    · exact h
  have heq := applyClaim_of_zero it c q h0
  refine ⟨heq, ?_, ?_, ?_⟩
  · intro x hx
    rw [heq] at hx
    simpa using (List.mem_filter.1 hx).2
  · intro hno
    rw [heq]
    have : it.Claims.filter (fun x => decide (x.Claimer ≠ c)) = it.Claims :=
      List.filter_eq_self.2 (fun x hx => by simpa using hno x hx)
    rw [this]
  · have h1 : (clampClaimed (applyClaim it c q) q).val = 0 := by
      rw [clampClaimed_congr it (applyClaim it c q) q (applyClaim_Target it c q)
        (applyClaim_Gathered it c q)]
      exact h0
    rw [applyClaim_of_zero (applyClaim it c q) c q h1, heq]
    simp only [List.filter_filter, Bool.and_self]

/-- C6: a gather update naming an existing item keeps the collection's length
and order and changes only the `gathered` of the first item of that name, to
the requested value clamped to `[0, target]`; that item's name, target and
claims and every other item are unchanged. -/
theorem gather_update_frame (w : World) (items : List item) (req : updateItemRequest)
    (hw : w.writeErr = none) (hr : readItems w.file = some items)
    (hex : ∃ it ∈ items, it.Name = req.Name) :
    ∃ pre it post, ∃ g : GoInt, items = pre ++ it :: post ∧ (∀ x ∈ pre, x.Name ≠ req.Name) ∧
      it.Name = req.Name ∧ g.val = min (max req.Gathered.val 0) it.Target.val ∧
      (updateItemHandler w ⟨"POST", some req⟩).1.status = 200 ∧
      (updateItemHandler w ⟨"POST", some req⟩).2.file =
        .present (pre ++ ⟨it.Name, it.Target, g, it.Claims⟩ :: post) := by
  obtain ⟨pre, it, post, hdec, hpre, hit⟩ := exists_first_named hex
  refine ⟨pre, it, post, clampGathered req.Gathered it.Target, hdec, hpre, hit,
    clampGathered_val _ _, ?_, ?_⟩
  · rw [updateItemHandler_post w items req hw hr, hdec, updateLoop_found req pre it post hpre hit]
    rfl
  · rw [updateItemHandler_post w items req hw hr, hdec, updateLoop_found req pre it post hpre hit]
    rfl

/-- C7: on a readable and writable store a decoded claim request is rejected
exactly when its claimer is empty after trimming (400) or no item has the
requested name (404), and a decoded gather update exactly when no item has the
requested name (404); a rejected request leaves the whole world (file and
broker) as it was. -/
theorem rejected_iff_and_unchanged (w : World) (items : List item)
    (hw : w.writeErr = none) (hr : readItems w.file = some items) :
    (∀ req : claimItemRequest,
      ((claimItemHandler w ⟨"POST", some req⟩).1.status ≠ 200 ↔
        (trimSpace req.Claimer = "" ∨ ∀ it ∈ items, it.Name ≠ req.Name)) ∧
      (trimSpace req.Claimer = "" →
        (claimItemHandler w ⟨"POST", some req⟩).1.status = 400 ∧
        (claimItemHandler w ⟨"POST", some req⟩).2 = w) ∧
      (trimSpace req.Claimer ≠ "" → (∀ it ∈ items, it.Name ≠ req.Name) →
        (claimItemHandler w ⟨"POST", some req⟩).1.status = 404 ∧
        (claimItemHandler w ⟨"POST", some req⟩).2 = w)) ∧
    (∀ req : updateItemRequest,
      ((updateItemHandler w ⟨"POST", some req⟩).1.status ≠ 200 ↔
        ∀ it ∈ items, it.Name ≠ req.Name) ∧
      ((∀ it ∈ items, it.Name ≠ req.Name) →
        (updateItemHandler w ⟨"POST", some req⟩).1.status = 404 ∧
        (updateItemHandler w ⟨"POST", some req⟩).2 = w)) := by
  constructor
  · intro req
    rw [claimItemHandler_post w items req hw hr]
    have hupd := claimLoop_updated { req with Claimer := trimSpace req.Claimer } items
    simp only [] at hupd
    by_cases h1 : trimSpace req.Claimer = ""
    · simp [h1]
    · by_cases h2 : ∃ it ∈ items, it.Name = req.Name
      · have h3 := hupd.2 h2
        have h4 : ¬ ∀ it ∈ items, it.Name ≠ req.Name := by
          intro hall
          obtain ⟨it, hit, hn⟩ := h2
          exact hall it hit hn
        simp [h1, h3, h4]
      · have h3 : ¬ (claimLoop { req with Claimer := trimSpace req.Claimer } items).2 = true :=
          fun hc => h2 (hupd.1 hc)
        have h4 : ∀ it ∈ items, it.Name ≠ req.Name := fun it hit hn => h2 ⟨it, hit, hn⟩
        simp [h1, h3]
        exact h4
  · intro req
    rw [updateItemHandler_post w items req hw hr]
    have hupd := updateLoop_updated req items
    by_cases h2 : ∃ it ∈ items, it.Name = req.Name
    · have h3 := hupd.2 h2
      have h4 : ¬ ∀ it ∈ items, it.Name ≠ req.Name := by
        intro hall
        obtain ⟨it, hit, hn⟩ := h2
        exact hall it hit hn
      simp [h3, h4]
    · have h3 : ¬ (updateLoop req items).2 = true := fun hc => h2 (hupd.1 hc)
      have h4 : ∀ it ∈ items, it.Name ≠ req.Name := fun it hit hn => h2 ⟨it, hit, hn⟩
      simp [h3]
      exact h4

/-- C9: `broadcast` removes from the registry exactly the subscribers whose
buffer is full and appends the message at the end of every other subscriber's
buffer, leaving unregistered ids unregistered; so a subscriber registered by
`sseHandler` (capacity 4) that never receives holds the first four messages in
publish order and is removed by the fifth publish. -/
theorem broadcast_delivers_or_drops {α : Type} (b : sseBroker α) :
    (∀ (msg : α) (id : Nat),
      (b.broadcast msg).clients.lookup id =
        match b.clients.lookup id with
        | none => none
        | some ch =>
          if ch.buf.length < ch.cap then some ⟨ch.cap, ch.buf ++ [msg]⟩ else none) ∧
    (∀ m1 m2 m3 m4 m5 : α,
      (((((subscribe b).1.broadcast m1).broadcast m2).broadcast m3).broadcast
          m4).clients.lookup (subscribe b).2 = some ⟨4, [m1, m2, m3, m4]⟩ ∧
      ((((((subscribe b).1.broadcast m1).broadcast m2).broadcast m3).broadcast
          m4).broadcast m5).clients.lookup (subscribe b).2 = none) := by
  constructor
  · intro msg id
    rw [lookup_broadcast]
    cases b.clients.lookup id with
    | none => rfl
    | some ch => rfl
  · intro m1 m2 m3 m4 m5
    have h0 := lookup_subscribe b
    have h1 : ((subscribe b).1.broadcast m1).clients.lookup (subscribe b).2 =
        some ⟨4, [m1]⟩ := by
      rw [lookup_broadcast, h0]; rfl
    have h2 : (((subscribe b).1.broadcast m1).broadcast m2).clients.lookup (subscribe b).2 =
        some ⟨4, [m1, m2]⟩ := by
      rw [lookup_broadcast, h1]; rfl
    have h3 : ((((subscribe b).1.broadcast m1).broadcast m2).broadcast m3).clients.lookup
        (subscribe b).2 = some ⟨4, [m1, m2, m3]⟩ := by
      rw [lookup_broadcast, h2]; rfl
    have h4 : (((((subscribe b).1.broadcast m1).broadcast m2).broadcast m3).broadcast
        m4).clients.lookup (subscribe b).2 = some ⟨4, [m1, m2, m3, m4]⟩ := by
      rw [lookup_broadcast, h3]; rfl
    refine ⟨h4, ?_⟩
    rw [lookup_broadcast, h4]; rfl

/-- C8 (amended): mutation requests whose handlers run one after another, each
finishing its `writeItems` before the next one's `readItems`, leave exactly the
world and the replies of applying them in that order. -/
theorem serial_schedule_is_sequential (w : World) (reqs : List Request) :
    Sys.run ⟨w, reqs.map Proc.start⟩ (serialFrom 0 reqs.length) =
      ⟨runRequests w reqs, (runResponses w reqs).map Proc.finished⟩ := by
  have h := run_serialFrom reqs w []
  simpa using h

/-- C10: `cleanupBackups` removes only non-directory entries named
`items-*.json`; with at most 50 such archives it removes nothing, with more it
leaves exactly 50, each greater than every removed one. After more than 50
archive-writing cycles with distinct timestamps exactly 50 archives remain, and
every archive that was present or written and is gone is smaller than every
remaining one. -/
theorem cleanup_keeps_newest_fifty (dir : List DirEntry)
    (hnd : (dir.map DirEntry.name).Nodup) :
    (∀ e ∈ dir, e ∉ cleanupBackups true dir →
      e.isDir = false ∧ hasPrefix e.name "items-" = true ∧ hasSuffix e.name ".json" = true) ∧
    (∀ e ∈ cleanupBackups true dir, e ∈ dir) ∧
    ((listBackups dir).length ≤ 50 → cleanupBackups true dir = dir) ∧
    (50 < (listBackups dir).length →
      (listBackups (cleanupBackups true dir)).length = 50 ∧
      (∀ k ∈ listBackups (cleanupBackups true dir), k ∈ listBackups dir) ∧
      ∀ a ∈ listBackups dir, a ∉ listBackups (cleanupBackups true dir) →
        ∀ k ∈ listBackups (cleanupBackups true dir), stringLess a k = true) ∧
    (∀ cs : List Cycle, (∀ c ∈ cs, c.archives) →
      (∀ c ∈ cs, ∀ e ∈ dir, e.name = backupName c.timestamp → e.isDir = false) →
      (cs.map Cycle.timestamp).Nodup → 50 < cs.length →
      (listBackups (runCycles dir cs)).length = 50 ∧
      (∀ k ∈ listBackups (runCycles dir cs),
        k ∈ listBackups dir ∨ ∃ c ∈ cs, k = backupName c.timestamp) ∧
      ∀ a, (a ∈ listBackups dir ∨ ∃ c ∈ cs, a = backupName c.timestamp) →
        a ∉ listBackups (runCycles dir cs) →
        ∀ k ∈ listBackups (runCycles dir cs), stringLess a k = true) := by
  refine ⟨?_, ?_, cleanupBackups_of_le dir, ?_, ?_⟩
  · intro e he hne
    have hb := removed_isBackup dir hnd e he hne
    unfold isBackup at hb
    simp only [Bool.and_eq_true, Bool.not_eq_true'] at hb
    exact ⟨hb.1.1, hb.1.2, hb.2⟩
  · intro e he
    exact (cleanupBackups_sublist true dir).subset he
  · intro h50
    refine ⟨?_, kept_subset dir, deleted_less_kept dir hnd⟩
    rw [kept_length dir hnd]
    omega
  · intro cs hcs hdir htime hlen
    have hinit : Retained (listBackups dir) (listBackups dir) :=
      ⟨fun _ h => h, fun a ha hna => absurd ha hna⟩
    obtain ⟨hle, hsub, hout⟩ := runCycles_retained cs dir (listBackups dir) hcs hnd hdir hinit
    have hne : cs ≠ [] := by
      intro h
      rw [h] at hlen
      simp at hlen
    have hle50 := hle hne
    have hmemall : ∀ a, a ∈ listBackups dir ++ cs.map (fun c => backupName c.timestamp) ↔
        (a ∈ listBackups dir ∨ ∃ c ∈ cs, a = backupName c.timestamp) := by
      intro a
      simp only [List.mem_append, List.mem_map]
      constructor
      · rintro (h | ⟨c, hc, rfl⟩)
        · exact Or.inl h
        · exact Or.inr ⟨c, hc, rfl⟩
      · rintro (h | ⟨c, hc, rfl⟩)
        · exact Or.inl h
        · exact Or.inr ⟨c, hc, rfl⟩
    refine ⟨?_, fun k hk => (hmemall k).1 (hsub k hk), fun a ha hna => (hout a ((hmemall a).2 ha) hna).2⟩
    by_contra hnot
    have hall : ∀ a ∈ cs.map (fun c => backupName c.timestamp),
        a ∈ listBackups (runCycles dir cs) := by
      intro a ha
      by_contra hna
      exact hnot (hout a (List.mem_append_right _ ha) hna).1
    have hnames : (cs.map (fun c => backupName c.timestamp)).Nodup := by
      have : cs.map (fun c => backupName c.timestamp) =
          (cs.map Cycle.timestamp).map backupName := by
        rw [List.map_map]; rfl
      rw [this]
      exact htime.map (fun _ _ h => backupName_injective h)
    have := (List.subperm_of_subset hnames hall).length_le
    rw [List.length_map] at this
    omega


/-! ## Witnesses and the counterexample -/

/-- The hypotheses of C1 hold of `world0`, and after an over-large gather, two
claims and a negative gather every item is within its target. -/
theorem gathered_within_target_after_requests_witness :
    (∀ it ∈ [ironOre, stone], 0 ≤ it.Target.val ∧ 0 ≤ it.Gathered.val ∧
      it.Gathered.val ≤ it.Target.val) ∧
    ∃ items1,
      (runRequests world0 [gatherTooMuch, bobClaims, aliceClaims, gatherNegative]).file =
        .present items1 ∧
      ∀ it ∈ items1, 0 ≤ it.Gathered.val ∧ it.Gathered.val ≤ it.Target.val :=
  ⟨by decide,
    gathered_within_target_after_requests world0 [ironOre, stone]
      [gatherTooMuch, bobClaims, aliceClaims, gatherNegative] rfl rfl (by decide)⟩

/-- The hypotheses of C2 hold of `ironOreBob`, and after Alice claims 90 every
claim is inside `[0, 100]`. -/
theorem claim_ranges_within_target_witness :
    (∀ x ∈ ironOreBob.Claims, 0 ≤ x.ClaimStart.val ∧ x.ClaimStart.val ≤ x.ClaimEnd.val ∧
      x.ClaimEnd.val ≤ ironOreBob.Target.val) ∧
    ∀ x ∈ (applyClaim ironOreBob "Alice" (GoInt.ofInt 90)).Claims, 0 ≤ x.ClaimStart.val ∧
      x.ClaimStart.val ≤ x.ClaimEnd.val ∧
      x.ClaimEnd.val ≤ (applyClaim ironOreBob "Alice" (GoInt.ofInt 90)).Target.val :=
  ⟨by decide,
    (claim_ranges_within_target ironOreBob "Alice" (GoInt.ofInt 90) (by decide) (by decide)
      (by decide)).1⟩

/-- The hypotheses of C3 hold of `worldBob`, and after Bob and Alice claim, no
item has two claims of one claimer. -/
theorem one_claim_per_claimer_witness :
    (∀ it ∈ [ironOreBob], (it.Claims.map claim.Claimer).Nodup) ∧
    ∃ items1, (runRequests worldBob [bobClaims, aliceClaims, bobClaims]).file =
        .present items1 ∧
      ∀ it ∈ items1, (it.Claims.map claim.Claimer).Nodup :=
  ⟨by decide,
    one_claim_per_claimer worldBob [ironOreBob] [bobClaims, aliceClaims, bobClaims] rfl rfl
      (by decide)⟩

/-- The two scenarios of C4: Bob's 50 on target 100, gathered 20 gives
`[20, 70)`; Carl's 100 on target 10, gathered 5 gives `[5, 10)`. -/
theorem claim_positive_sets_range_witness :
    (applyClaim ironOre "Bob" (GoInt.ofInt 50)).Claims =
      [⟨"Bob", GoInt.ofInt 20, GoInt.ofInt 70⟩] ∧
    (applyClaim stone "Carl" (GoInt.ofInt 100)).Claims =
      [⟨"Carl", GoInt.ofInt 5, GoInt.ofInt 10⟩] := by
  constructor
  · obtain ⟨e, he, _, _, _, happ, _⟩ :=
      claim_positive_sets_range ironOre "Bob" (GoInt.ofInt 50) (by decide) (by decide)
    have h70 : e = GoInt.ofInt 70 := Subtype.ext (he.trans (by decide))
    rw [happ (by decide), h70]
    rfl
  · obtain ⟨e, he, _, _, _, happ, _⟩ :=
      claim_positive_sets_range stone "Carl" (GoInt.ofInt 100) (by decide) (by decide)
    have h10 : e = GoInt.ofInt 10 := Subtype.ext (he.trans (by decide))
    rw [happ (by decide), h10]
    rfl

/-- The scenario of C5: Alice, who holds no claim, claims 0 of Iron Ore; the
item is unchanged. A zero claim by Bob on `ironOreBob` removes his claim. -/
theorem claim_zero_removes_witness :
    applyClaim ironOre "Alice" GoInt.zero = ironOre ∧
    (applyClaim ironOreBob "Bob" GoInt.zero).Claims = [] :=
  ⟨(claim_zero_removes ironOre "Alice" GoInt.zero (Or.inl (by decide))).2.2.1 (by decide),
    by rw [(claim_zero_removes ironOreBob "Bob" GoInt.zero (Or.inl (by decide))).1]; decide⟩

/-- The scenario of C6: gathering 40 on the item where Bob holds `[20, 70)`
moves `gathered` to 40 and leaves Bob's claim as it was. -/
theorem gather_update_frame_witness :
    (updateItemHandler worldBob ⟨"POST", some ⟨"Iron Ore", GoInt.ofInt 40⟩⟩).2.file =
      .present [⟨"Iron Ore", GoInt.ofInt 100, GoInt.ofInt 40,
        [⟨"Bob", GoInt.ofInt 20, GoInt.ofInt 70⟩]⟩] := by
  obtain ⟨pre, it, post, g, hdec, hpre, hit, hg, _, hfile⟩ :=
    gather_update_frame worldBob [ironOreBob] ⟨"Iron Ore", GoInt.ofInt 40⟩ rfl rfl
      ⟨ironOreBob, by decide, by decide⟩
  have hpre0 : pre = [] := by
    cases pre with
    | nil => rfl
    | cons x xs =>
      cases xs with
      | nil =>
        simp only [List.singleton_append, List.cons.injEq] at hdec
        exact absurd hdec.2 (by simp)
      | cons y ys =>
        have := congrArg List.length hdec
        simp at this
  subst hpre0
  simp only [List.nil_append, List.cons.injEq] at hdec
  obtain ⟨hit0, hpost⟩ := hdec
  subst hit0
  subst hpost
  have h40 : g = GoInt.ofInt 40 := Subtype.ext (hg.trans (by decide))
  rw [hfile, h40]
  rfl

/-- On `world0`: a claim with a blank claimer is answered 400, a claim and a
gather update for an unknown item 404, and the world stays as it was. -/
theorem rejected_iff_and_unchanged_witness :
    ((claimItemHandler world0 ⟨"POST", some ⟨"Iron Ore", GoInt.ofInt 5, " \t"⟩⟩).1.status = 400 ∧
      (claimItemHandler world0 ⟨"POST", some ⟨"Iron Ore", GoInt.ofInt 5, " \t"⟩⟩).2 = world0) ∧
    ((claimItemHandler world0 ⟨"POST", some ⟨"iron ore", GoInt.ofInt 5, "Bob"⟩⟩).1.status = 404 ∧
      (claimItemHandler world0 ⟨"POST", some ⟨"iron ore", GoInt.ofInt 5, "Bob"⟩⟩).2 = world0) ∧
    ((updateItemHandler world0 ⟨"POST", some ⟨"Gold", GoInt.ofInt 5⟩⟩).1.status = 404 ∧
      (updateItemHandler world0 ⟨"POST", some ⟨"Gold", GoInt.ofInt 5⟩⟩).2 = world0) :=
  ⟨((rejected_iff_and_unchanged world0 [ironOre, stone] rfl rfl).1
      ⟨"Iron Ore", GoInt.ofInt 5, " \t"⟩).2.1 (by decide),
    ((rejected_iff_and_unchanged world0 [ironOre, stone] rfl rfl).1
      ⟨"iron ore", GoInt.ofInt 5, "Bob"⟩).2.2 (by decide) (by decide),
    ((rejected_iff_and_unchanged world0 [ironOre, stone] rfl rfl).2
      ⟨"Gold", GoInt.ofInt 5⟩).2 (by decide)⟩

/-- C8 as stated fails: with Bob's and Alice's handlers both reading before
either writes, both are answered 200, the file ends with Alice's claim only,
and neither order of the two requests gives that file. -/
theorem lost_update_when_interleaved :
    (Sys.run ⟨world0, [.start bobClaims, .start aliceClaims]⟩
      [.read 0, .read 1, .write 0, .write 1]).procs.map Proc.status = [some 200, some 200] ∧
    (Sys.run ⟨world0, [.start bobClaims, .start aliceClaims]⟩
      [.read 0, .read 1, .write 0, .write 1]).world.file =
      .present [⟨"Iron Ore", GoInt.ofInt 100, GoInt.ofInt 20,
        [⟨"Alice", GoInt.ofInt 20, GoInt.ofInt 30⟩]⟩, stone] ∧
    (Sys.run ⟨world0, [.start bobClaims, .start aliceClaims]⟩
      [.read 0, .read 1, .write 0, .write 1]).world.file ≠
      (runRequests world0 [bobClaims, aliceClaims]).file ∧
    (Sys.run ⟨world0, [.start bobClaims, .start aliceClaims]⟩
      [.read 0, .read 1, .write 0, .write 1]).world.file ≠
      (runRequests world0 [aliceClaims, bobClaims]).file := by
  decide

set_option maxRecDepth 100000 in
/-- On a directory with 51 archives, a directory and a stray file, whose names
are distinct, `cleanupBackups` leaves 50 archives and removes `items-00.json`
only; and 51 backup cycles from a directory holding a stray file leave 50
archives, the first cycle's being smaller than each of them. -/
theorem cleanup_keeps_newest_fifty_witness :
    (dir51.map DirEntry.name).Nodup ∧ 50 < (listBackups dir51).length ∧
    (listBackups (cleanupBackups true dir51)).length = 50 ∧
    (∀ k ∈ listBackups (cleanupBackups true dir51), stringLess "items-00.json" k = true) ∧
    (listBackups (runCycles [⟨"notes.txt", false⟩] cycles51)).length = 50 :=
  ⟨by decide, by decide,
    ((cleanup_keeps_newest_fifty dir51 (by decide)).2.2.2.1 (by decide)).1,
    ((cleanup_keeps_newest_fifty dir51 (by decide)).2.2.2.1 (by decide)).2.2
      "items-00.json" (by decide) (by decide),
    ((cleanup_keeps_newest_fifty [⟨"notes.txt", false⟩] (by decide)).2.2.2.2 cycles51
      (fun c hc => by
        obtain ⟨t, _, rfl⟩ := List.mem_map.1 hc
        exact ⟨⟨[ironOre], rfl, by simp⟩, rfl, rfl, rfl⟩)
      (fun c hc e he hn => by
        simp only [List.mem_singleton] at he
        rw [he])
      (by decide) (by decide)).1⟩

end ItemChecklist
